import Mathlib

/-!
Verification of the medicine-label OCR pipeline (`medicine_api.py`):
the OCR-repair normalizer, the lexicon-based fuzzy matcher, the
usage-range parser, and the alarm-schedule generator.

All string processing is modelled on `List Char`.  Python regular
expressions are embedded as hand-rolled deterministic scanners that follow
`re.sub`/`re.search` semantics (leftmost match, non-overlapping scan,
greedy quantifiers; the patterns used by the source never need
backtracking beyond the explicit option fallbacks below).  Python's `\w`
and `\s` classes are modelled on the character ranges that occur in this
application: ASCII alphanumerics, underscore and the Hangul blocks for
`\w`, and ASCII whitespace for `\s`.  Python `float` scores are modelled
as exact real numbers.
-/

namespace MedicineApi

/-- ASCII / Hangul word characters, modelling Python's `\b` boundary test. -/
def isWordChar (c : Char) : Bool :=
  c.isAlphanum || c == '_' ||
  (0xAC00 ≤ c.toNat && c.toNat ≤ 0xD7A3) ||
  (0x1100 ≤ c.toNat && c.toNat ≤ 0x11FF) ||
  (0x3130 ≤ c.toNat && c.toNat ≤ 0x318F)

/-- The single-quote character (written by code point to keep the source plain). -/
def quoteCh : Char := Char.ofNat 39

/-- The backtick character (written by code point to keep the source plain). -/
def backtickCh : Char := Char.ofNat 96

/-- Characters removed by the first normalization step:
the class `` [`'"[\]<>･·] `` of `_normalize_ocr`. -/
def isStripCh (c : Char) : Bool :=
  c == backtickCh || c == quoteCh || c == '"' || c == '[' || c == ']' ||
  c == '<' || c == '>' || c == '･' || c == '·'

/-- `\b` at the start of the remaining input: true iff the next character
(if any) is not a word character. -/
def bdryB : List Char → Bool
  | [] => true
  | c :: _ => !(isWordChar c)

/-- Lookbehind `(?<=\d)`: the previous character exists and is a digit. -/
def prevDigit : Option Char → Bool
  | some c => c.isDigit
  | none => false

/-- Step 3 of `_normalize_ocr`: `re.sub(r"(\d)l(\d)", r"\g<1>1\g<2>", t)`,
a non-overlapping left-to-right scan. -/
def sub3 : List Char → List Char
  | c1 :: 'l' :: c2 :: rest =>
    if c1.isDigit && c2.isDigit then c1 :: '1' :: c2 :: sub3 rest
    else c1 :: sub3 ('l' :: c2 :: rest)
  | c :: rest => c :: sub3 rest
  | [] => []

/-- Step 4 of `_normalize_ocr`: `t.replace("O", "0").replace("|", "1")`. -/
def sub4 (t : List Char) : List Char :=
  t.map fun c => if c == 'O' then '0' else if c == '|' then '1' else c

/-- The class `[에eE]` of step 5. -/
def isE5 (c : Char) : Bool := c == '에' || c == 'e' || c == 'E'

/-- The class `[mM]` of steps 5 and 6. -/
def isMm (c : Char) : Bool := c == 'm' || c == 'M'

/-- The class `[이iIlL]` of step 6. -/
def isI6 (c : Char) : Bool := c == '이' || c == 'i' || c == 'I' || c == 'l' || c == 'L'

/-- Step 5 of `_normalize_ocr`: `re.sub(r"(정)1[에eE][mM]9\b", r"\g<1>10mg", t)`. -/
def sub5 : List Char → List Char
  | a :: b :: c :: d :: e :: rest =>
    if a == '정' && b == '1' && isE5 c && isMm d && e == '9' && bdryB rest then
      '정' :: '1' :: '0' :: 'm' :: 'g' :: sub5 rest
    else a :: sub5 (b :: c :: d :: e :: rest)
  | a :: rest => a :: sub5 rest
  | [] => []

/-- Step 6 of `_normalize_ocr`: `re.sub(r"(정)1[이iIlL][mM]\b", r"\g<1>10mg", t)`. -/
def sub6 : List Char → List Char
  | a :: b :: c :: d :: rest =>
    if a == '정' && b == '1' && isI6 c && isMm d && bdryB rest then
      '정' :: '1' :: '0' :: 'm' :: 'g' :: sub6 rest
    else a :: sub6 (b :: c :: d :: rest)
  | a :: rest => a :: sub6 rest
  | [] => []

/-- Step 7 of `_normalize_ocr`: `re.sub(r"(?<=\d)lm\b", "10mg", t)`.
The first argument is the previous character of the original scan
(the lookbehind is not consumed by a match). -/
def sub7 (prev : Option Char) : List Char → List Char
  | 'l' :: 'm' :: rest =>
    if prevDigit prev && bdryB rest then '1' :: '0' :: 'm' :: 'g' :: sub7 (some 'm') rest
    else 'l' :: sub7 (some 'l') ('m' :: rest)
  | c :: rest => c :: sub7 (some c) rest
  | [] => []

/-- Step 8 of `_normalize_ocr`: `re.sub(r"(?<=\d)m\b", "mg", t)`. -/
def sub8 (prev : Option Char) : List Char → List Char
  | [] => []
  | c :: rest =>
    if c == 'm' && prevDigit prev && bdryB rest then c :: 'g' :: sub8 (some c) rest
    else c :: sub8 (some c) rest

/-- Step 1 of `_normalize_ocr`: remove quoting/bracket punctuation. -/
def sub1 (t : List Char) : List Char := t.filter fun c => !isStripCh c

/-- Step 2 of `_normalize_ocr`: `re.sub(r"\s+", "", t)`. -/
def sub2 (t : List Char) : List Char := t.filter fun c => !c.isWhitespace

/-- `_normalize_ocr` on character lists: strip quoting/bracket punctuation,
drop whitespace, then apply the fixed OCR-confusion repairs in order. -/
def normList (t : List Char) : List Char :=
  sub8 none (sub7 none (sub6 (sub5 (sub4 (sub3 (sub2 (sub1 t)))))))

/-- `_normalize_ocr`: OCR misrecognition repair. -/
def _normalize_ocr (s : String) : String := ⟨normList s.data⟩

example : _normalize_ocr "타이레놀정500mg" = "타이레놀정500mg" := by decide
example : _normalize_ocr "1l|" = "1l1" := by decide
example : _normalize_ocr "1l1" = "111" := by decide
example : _normalize_ocr " 3O1 m " = "301mg" := by decide

/-- `needle in hay` on Python strings: contiguous-substring test. -/
def containsSeq (needle hay : List Char) : Bool :=
  hay.tails.any fun t => needle.isPrefixOf t

/-- The receipt/boilerplate keywords `_KO_NOISE_KEYWORDS`. -/
def _KO_NOISE_KEYWORDS : List String :=
  ["환자정보", "병원정보", "영수증", "현금", "현금영수증", "사업자등록", "사업장소재지", "발행일",
   "교부번호", "약제비", "본인부담", "보험자부담", "총수납", "주의사항", "복약안내", "약품사진",
   "약품명", "투약량", "횟수", "일수", "표시대로복용", "아침", "점심", "저녁", "취침전", "약국",
   "조제약", "복약", "조제일자", "발행기관", "총수납금액", "현금승인", "영수증번호",
   "사업자등록번호", "복용완료일", "투약량횟수일수", "생리통에", "효과", "일반", "제와"]

/-- Skip an optional single dash (`-?`; deterministic because the following
pattern element is always a digit). -/
def skipDash (t : List Char) : List Char :=
  match t with
  | '-' :: rest => rest
  | _ => t

/-- `re.fullmatch(r"\d{2,}원", t)`. -/
def matchWon (t : List Char) : Bool :=
  match t.getLast? with
  | some c => c == '원' && 2 ≤ t.dropLast.length && t.dropLast.all Char.isDigit
  | none => false

/-- `re.fullmatch(r"\d{3,}[-]?\d{2}[-]?\d{5}", t)`; the first group's length
is existentially quantified, matching regex backtracking. -/
def matchBizReg (t : List Char) : Bool :=
  (List.range (t.length + 1)).any fun k =>
    3 ≤ k && (t.take k).all Char.isDigit && (t.take k).length == k &&
      (let t1 := skipDash (t.drop k)
       let t2 := t1.drop 2
       (t1.take 2).all Char.isDigit && t1.length ≥ 2 &&
         (let t3 := skipDash t2
          t3.length == 5 && t3.all Char.isDigit))

/-- `re.fullmatch(r"\d{8}", t)`. -/
def matchDigits8 (t : List Char) : Bool :=
  t.length == 8 && t.all Char.isDigit

/-- `re.fullmatch(r"\d{4}[-]?\d{2}[-]?\d{2}", t)`. -/
def matchDate (t : List Char) : Bool :=
  (t.take 4).length == 4 && (t.take 4).all Char.isDigit &&
    (let t1 := skipDash (t.drop 4)
     (t1.take 2).length == 2 && (t1.take 2).all Char.isDigit &&
       (let t2 := skipDash (t1.drop 2)
        t2.length == 2 && t2.all Char.isDigit))

/-- `_is_noise_line`: structural noise-line test. -/
def _is_noise_line (t : String) : Bool :=
  t.data.length ≤ 1 ||
  _KO_NOISE_KEYWORDS.any (fun k => containsSeq k.data t.data) ||
  matchWon t.data || matchBizReg t.data || matchDigits8 t.data || matchDate t.data

example : _is_noise_line "20240101" = true := by decide
example : _is_noise_line "2024-01-01" = true := by decide
example : _is_noise_line "타이레놀정" = false := by decide
example : _is_noise_line "12345원" = true := by decide
example : _is_noise_line "123-45-67890" = true := by decide

/-- `_to_jamo` on one character: decompose a Hangul syllable block into
onset/nucleus/coda jamo; other characters pass through. -/
def toJamoCh (c : Char) : List Char :=
  let code := c.toNat
  if 0xAC00 ≤ code && code ≤ 0xD7A3 then
    let syll := code - 0xAC00
    let onset := syll / 588
    let nuc := (syll % 588) / 28
    let coda := syll % 28
    [Char.ofNat (0x1100 + onset), Char.ofNat (0x1161 + nuc)] ++
      (if coda == 0 then [] else [Char.ofNat (0x11A8 + (coda - 1))])
  else [c]

/-- `_to_jamo` on a character list. -/
def _to_jamo (t : List Char) : List Char := (t.map toJamoCh).flatten

/-- Inner loop of `_levenshtein`: walks `b` and the tail of the previous row,
carrying the diagonal and left cells, and produces the tail of the
current row. -/
def levAux (ca : Char) : Nat → Nat → List Char → List Nat → List Nat
  | diag, left, cb :: bs, pj :: ps =>
    let m := min (min (left + 1) (pj + 1)) (diag + if ca == cb then 0 else 1)
    m :: levAux ca pj m bs ps
  | _, _, _, _ => []

/-- Outer loop of `_levenshtein`: one row per character of `a`. -/
def levLoop (b : List Char) : List Char → List Nat → Nat → List Nat
  | [], prev, _ => prev
  | ca :: rest, p0 :: ptail, i => levLoop b rest (i :: levAux ca p0 i b ptail) (i + 1)
  | _ :: _, [], _ => []

/-- `_levenshtein`: edit distance with the source's early returns. -/
def _levenshtein (a b : List Char) : Nat :=
  if a == b then 0
  else if a.isEmpty then b.length
  else if b.isEmpty then a.length
  else (levLoop b a (List.range (b.length + 1)) 1).getLastD 0

example : _levenshtein "kitten".data "sitting".data = 3 := by decide
example : _levenshtein "abc".data "abc".data = 0 := by decide

/-- `_jamo_sim`: normalized jamo-level edit-distance similarity. -/
def _jamo_sim (a b : List Char) : ℚ :=
  let ja := _to_jamo a
  let jb := _to_jamo b
  let d := _levenshtein ja jb
  let L := max ja.length jb.length
  if L == 0 then 0
  else
    let v : ℚ := 1 - (d : ℚ) / ((max 2 L : ℕ) : ℚ)
    if v ≤ 0 then 0 else v

example : _jamo_sim "타이레놀정".data "타이레놀정".data = 1 := by
  have h : _levenshtein (_to_jamo "타이레놀정".data) (_to_jamo "타이레놀정".data) = 0 := by decide
  have h2 : (_to_jamo "타이레놀정".data).length = 12 := by decide
  simp only [_jamo_sim, h, h2]
  norm_num

/-- `_NOISE_TOKENS`: dosage-form/structural noise tokens. -/
def _NOISE_TOKENS : List String :=
  ["일", "회", "전", "후", "식전", "식후", "분", "정", "캡슐", "mg", "m g", "병의원", "영수증",
   "번호", "복약", "안내", "피알", "서방", "장용"]

/-- `_is_noise_token`: membership in the noise set, or an all-digit token. -/
def _is_noise_token (tok : List Char) : Bool :=
  _NOISE_TOKENS.any (fun s => s.data == tok) || (!tok.isEmpty && tok.all Char.isDigit)

/-- Try the affix alternatives in order at the head of `t`; on success return
the remaining input after the matched alternative. -/
def firstAlt (alts : List (List Char)) (t : List Char) : Option (List Char) :=
  match alts with
  | [] => none
  | a :: rest => if a.isPrefixOf t then some (t.drop a.length) else firstAlt rest t

/-- The alternation of `_AFFIX_DROP_RE`, in source order. -/
def _AFFIX_ALTS : List (List Char) :=
  ["서방", "장용", "피알", "에스알", "SR", "ER", "OD", "에스"].map String.data

/-- Left-to-right scan-and-delete for `_AFFIX_DROP_RE` (fuel-indexed; every
alternative is at least two characters, so `t.length` fuel suffices). -/
def scanDropF (alts : List (List Char)) : Nat → List Char → List Char
  | _, [] => []
  | 0, t => t
  | fuel + 1, c :: rest =>
    match firstAlt alts (c :: rest) with
    | some rem => scanDropF alts fuel rem
    | none => c :: scanDropF alts fuel rest

/-- The alternation of `_FORM_SUFFIX_RE`, in source order. -/
def _FORM_ALTS : List (List Char) :=
  ["정", "캡슐", "시럽", "현탁", "정제", "정밀"].map String.data

/-- `_FORM_SUFFIX_RE` removal: an end-anchored alternative matches at a scan
position exactly when it equals the whole remaining input. -/
def dropFormSuffix : List Char → List Char
  | [] => []
  | c :: rest => if _FORM_ALTS.any (fun a => a == c :: rest) then [] else c :: dropFormSuffix rest

/-- `_strip_affixes`: drop modifier affixes, then a trailing dosage-form suffix. -/
def _strip_affixes (token : List Char) : List Char :=
  dropFormSuffix (scanDropF _AFFIX_ALTS token.length token)

example : _strip_affixes "타이레놀정".data = "타이레놀".data := by decide
example : _strip_affixes "서방정".data = [] := by decide
example : _strip_affixes "이브에스정".data = "이브".data := by decide

/-- `_prefix_ngrams`: prefixes of length 2..min(len,4). -/
def _prefix_ngrams (token : List Char) : List (List Char) :=
  ((List.range (min token.length 4 + 1)).drop 2).map fun k => token.take k

example : _prefix_ngrams "타이레놀정".data = ["타이".data, "타이레".data, "타이레놀".data] := by decide

/-- `_token_root`: jamo projection of the affix-stripped token. -/
def _token_root (tok : List Char) : List Char := _to_jamo (_strip_affixes tok)

/-- Set insertion for Python `set.add`, modelled as order-preserving dedup. -/
def dedupInsert (acc : List (List Char)) (t : List Char) : List (List Char) :=
  if acc.contains t then acc else acc ++ [t]

/-- In-place update of the `by_root` dict of `_collapse_variants`:
keep the longer representative for an existing root, insert new roots last. -/
def upsertRoot (acc : List (List Char × List Char)) (r t : List Char) :
    List (List Char × List Char) :=
  match acc with
  | [] => [(r, t)]
  | (r0, t0) :: rest =>
    if r0 == r then (if t0.length < t.length then (r0, t) else (r0, t0)) :: rest
    else (r0, t0) :: upsertRoot rest r t

/-- `_collapse_variants`: fold variant tokens sharing a jamo root into one
representative (the longest surface form). -/
def _collapse_variants (tokens : List (List Char)) : List (List Char) :=
  (tokens.foldl
      (fun acc t =>
        let r := _token_root t
        if r.isEmpty then acc else upsertRoot acc r t)
      []).map (·.2)

/-- `_roots`: the set of nonempty jamo roots of a token set. -/
def _roots (tokens : List (List Char)) : List (List Char) :=
  tokens.foldl
    (fun acc t =>
      let r := _token_root t
      if r.isEmpty then acc else dedupInsert acc r)
    []

/-- One Hangul-syllable test, the class `[가-힣]`. -/
def isHangulSyl (c : Char) : Bool := 0xAC00 ≤ c.toNat && c.toNat ≤ 0xD7A3

/-- Step function for `hangulRuns`: extend the current run or close it. -/
def hangulRunsAux (c : Char) (st : List Char × List (List Char)) :
    List Char × List (List Char) :=
  if isHangulSyl c then (c :: st.1, st.2)
  else ([], if st.1.isEmpty then st.2 else st.1 :: st.2)

/-- `re.findall(r"[가-힣]+", t)`: maximal runs of Hangul syllables, in order. -/
def hangulRuns (t : List Char) : List (List Char) :=
  let st := t.foldr hangulRunsAux ([], [])
  if st.1.isEmpty then st.2 else st.1 :: st.2

example : hangulRuns "타이레놀정500mg".data = ["타이레놀정".data] := by decide
example : hangulRuns "아침 저녁".data = ["아침".data, "저녁".data] := by decide

/-- One lexicon entry: canonical name, aliases, collapsed token set, jamo
roots and normalized aliases.  (The source also caches `aliases_jamo`, but
that cache is never read: the fuzzy loop recomputes jamo forms via
`_jamo_sim`, so it is omitted here.) -/
structure Drug where
  canonical : String
  aliases : List String
  tokens : List (List Char)
  token_roots : List (List Char)
  normalized_aliases : List (List Char)
deriving DecidableEq

/-- Token extraction of `DrugLexicon.__init__`: for every normalized alias,
take Korean runs of length ≥ 2; add the affix-stripped base and its prefix
n-grams when the base keeps length ≥ 2; always add the raw token. -/
def drugTokens (normAliases : List (List Char)) : List (List Char) :=
  normAliases.foldl
    (fun acc na =>
      (hangulRuns na).foldl
        (fun acc2 t =>
          if t.length < 2 then acc2
          else
            let base := _strip_affixes t
            let acc3 :=
              if 2 ≤ base.length then (_prefix_ngrams base).foldl dedupInsert (dedupInsert acc2 base)
              else acc2
            dedupInsert acc3 t)
        acc)
    []

/-- Python `str.strip()`. -/
def stripWs (t : List Char) : List Char :=
  ((t.dropWhile Char.isWhitespace).reverse.dropWhile Char.isWhitespace).reverse

/-- Split step for `line.split("|")` (all pieces kept, like Python). -/
def splitBarAux (c : Char) (st : List Char × List (List Char)) :
    List Char × List (List Char) :=
  if c == '|' then ([], st.1 :: st.2) else (c :: st.1, st.2)

/-- `line.split("|")`. -/
def splitBar (t : List Char) : List (List Char) :=
  let st := t.foldr splitBarAux ([], [])
  st.1 :: st.2

/-- Parse one catalog line `canonical | alias | alias ...` into a `Drug`:
split on `|`, strip each part, drop empties; the first part is the
canonical name and every part is an alias. -/
def mkDrug (line : String) : Option Drug :=
  let parts := ((splitBar line.data).map stripWs).filter fun p => !p.isEmpty
  match parts with
  | [] => none
  | canonical :: _ =>
    let normAliases := parts.map normList
    let allTokens := _collapse_variants (drugTokens normAliases)
    some
      { canonical := ⟨canonical⟩, aliases := parts.map fun p => (⟨p⟩ : String),
        tokens := allTokens, token_roots := _roots allTokens,
        normalized_aliases := normAliases }

/-- Increment the document frequency of root `r` (`self.token_df`). -/
def dfAdd (acc : List (List Char × Nat)) (r : List Char) : List (List Char × Nat) :=
  match acc with
  | [] => [(r, 1)]
  | (r0, n) :: rest => if r0 == r then (r0, n + 1) :: rest else (r0, n) :: dfAdd rest r

/-- The immutable lexicon: drugs, per-root document frequency, entry count. -/
structure DrugLexicon where
  drugs : List Drug
  token_df : List (List Char × Nat)
  N_drugs : Nat

/-- `DrugLexicon.__init__` from catalog lines. -/
def mkLexicon (items : List String) : DrugLexicon :=
  let drugs := items.filterMap mkDrug
  { drugs := drugs,
    token_df := drugs.foldl (fun acc d => d.token_roots.foldl dfAdd acc) [],
    N_drugs := max 1 drugs.length }

/-- `self.token_df.get(r, 1)`. -/
def dfGet (df : List (List Char × Nat)) (r : List Char) : Nat :=
  match df.find? (fun p => p.1 == r) with
  | some p => p.2
  | none => 1

/-- One scored candidate from `match_from_ocr_lines`. -/
structure MatchCandidate where
  canonical : String
  aliases : List String
  score : ℝ
  matched_tokens : List (List Char)
  matched_line : String
  line_index : Nat

/-- Per-line derived data of the matcher loop. -/
structure LineData where
  normLine : List Char
  raw_tokens : List (List Char)
  line_tokens_raw : List (List Char)
  line_tokens : List (List Char)
  line_roots : List (List Char)

/-- Normalization, token extraction, noise removal and variant collapsing
for one OCR line. -/
def mkLineData (line : String) : LineData :=
  let nl := normList line.data
  let raw := hangulRuns nl
  let ltRaw := raw.foldl (fun acc t => if _is_noise_token t then acc else dedupInsert acc t) []
  let lt := _collapse_variants ltRaw
  { normLine := nl, raw_tokens := raw, line_tokens_raw := ltRaw, line_tokens := lt,
    line_roots := _roots lt }

/-- Roots shared between the line and the entry (`matched_roots`). -/
def matchedRoots (ld : LineData) (d : Drug) : List (List Char) :=
  ld.line_roots.filter fun r => d.token_roots.contains r

/-- `rep_by_root` lookup: the last collapsed line token with the given root
(dict comprehensions keep the last writer). -/
def repByRoot (line_tokens : List (List Char)) (r : List Char) : Option (List Char) :=
  (line_tokens.filter fun t => _token_root t == r).getLast?

/-- The display token set before the hard-containment stage. -/
def matchedTokens0 (ld : LineData) (d : Drug) : List (List Char) :=
  (matchedRoots ld d).filterMap (repByRoot ld.line_tokens)

/-- Stage [A]: some nonempty alias contains the line or is contained in it. -/
def hardContain (normAliases : List (List Char)) (normLine : List Char) : Bool :=
  normAliases.any fun a => !a.isEmpty && (containsSeq a normLine || containsSeq normLine a)

/-- Inner loop of the affix-bridged check for a fixed alias: first line token
that extends the alias (score 0.95) or is a prefix of it (score 0.90). -/
def affixHitTok (al : List Char) : List (List Char) → Option (ℚ × List (List Char))
  | [] => none
  | tok :: rest =>
    if al.isPrefixOf tok && 2 ≤ al.length then some (95 / 100, [al, tok])
    else if tok.isPrefixOf al && 2 ≤ tok.length then some (9 / 10, [tok])
    else affixHitTok al rest

/-- Stage [A2]: the affix-bridged containment check, alias-major order,
stopping at the first hit. -/
def affixHit : List (List Char) → List (List Char) → Option (ℚ × List (List Char))
  | [], _ => none
  | a :: rest, toks =>
    match affixHitTok a toks with
    | some r => some r
    | none => affixHit rest toks

/-- Stages [A] + [A2] combined: the rational hard score, the matched-token
set after any affix-bridged extension, and the `hard_hit` flag. -/
def hardParts (d : Drug) (ld : LineData) : ℚ × List (List Char) × Bool :=
  let mt0 := matchedTokens0 ld d
  if hardContain d.normalized_aliases ld.normLine then (95 / 100, mt0, true)
  else
    match affixHit d.normalized_aliases ld.line_tokens with
    | some (q, extra) => (q, extra.foldl dedupInsert mt0, true)
    | none => (0, mt0, false)

/-- The matched-token set used by stages [B] and [D] and by the emitted
candidate. -/
def mtOf (d : Drug) (ld : LineData) : List (List Char) := (hardParts d ld).2.1

/-- The IDF boost of one matched token:
`min(0.6, 0.2 + log2(N_drugs / df + 1) * 0.2)`. -/
noncomputable def idfTerm (N df : Nat) : ℝ :=
  min 0.6 (0.2 + Real.logb 2 ((N : ℝ) / (df : ℝ) + 1) * 0.2)

/-- Stage [B] boost: maximum IDF term over the matched tokens. -/
noncomputable def idfBoost (lex : DrugLexicon) (mt : List (List Char)) : ℝ :=
  mt.foldl (fun acc t => max acc (idfTerm lex.N_drugs (dfGet lex.token_df (_token_root t)))) 0

/-- Stage [C] similarity: maximum jamo similarity of any alias against the
whole line and against each collapsed line token. -/
def maxJamoSim (normAliases line_tokens : List (List Char)) (normLine : List Char) : ℚ :=
  normAliases.foldl
    (fun acc a =>
      let acc1 := max acc (_jamo_sim a normLine)
      line_tokens.foldl (fun acc2 tok => max acc2 (_jamo_sim a tok)) acc1)
    0

/-- The accumulated score after stages [A], [A2], [B] and [C]: each stage
folds its contribution in with `max`, mirroring the sequential
`score = max(score, ...)` updates. -/
noncomputable def rawScore (lex : DrugLexicon) (d : Drug) (ld : LineData) : ℝ :=
  let scoreA : ℝ := ((hardParts d ld).1 : ℝ)
  let mt := mtOf d ld
  let scoreB : ℝ :=
    if mt.isEmpty then scoreA
    else max scoreA ((if mt.length == 1 then (0.6 : ℝ) else 0.8) + idfBoost lex mt)
  let sim := maxJamoSim d.normalized_aliases ld.line_tokens ld.normLine
  if (85 / 100 : ℚ) ≤ sim then max scoreB (0.92 * (sim : ℝ))
  else if (7 / 10 : ℚ) ≤ sim then max scoreB (0.80 * (sim : ℝ))
  else scoreB

/-- Stage [D] noise ratio of the raw (pre-dedup) line tokens. -/
def noiseRatio (ld : LineData) : ℚ :=
  if ld.raw_tokens.isEmpty then 0
  else ((ld.raw_tokens.filter _is_noise_token).length : ℚ) / (ld.raw_tokens.length : ℚ)

/-- Stage [D] acceptance threshold: 0.45 normally, 0.5 for noisy lines,
relaxed to 0.40 under a strong IDF boost. -/
noncomputable def thresholdOf (lex : DrugLexicon) (d : Drug) (ld : LineData) : ℝ :=
  let base : ℝ := if noiseRatio ld ≤ 1 / 2 then 0.45 else 0.5
  if !(mtOf d ld).isEmpty ∧ (0.3 : ℝ) ≤ idfBoost lex (mtOf d ld) then min base 0.40
  else base

/-- Round half to even, Python's `round` tie rule. -/
noncomputable def roundHalfEven (x : ℝ) : ℤ :=
  let n := ⌊x⌋
  let f := x - (n : ℝ)
  if f < 1 / 2 then n else if 1 / 2 < f then n + 1 else if Even n then n else n + 1

/-- `round(x, 2)`. -/
noncomputable def round2 (x : ℝ) : ℝ := ((roundHalfEven (x * 100) : ℤ) : ℝ) / 100

/-- The candidate emitted for an accepted (line, entry) pair. -/
noncomputable def mkCand (lex : DrugLexicon) (d : Drug) (ld : LineData) (idx : Nat)
    (line : String) : MatchCandidate :=
  { canonical := d.canonical, aliases := d.aliases,
    score := round2 (min (rawScore lex d ld) 1),
    matched_tokens := mtOf d ld, matched_line := line, line_index := idx }

/-- The per-line loop over lexicon entries, with the per-line
`seen_line_canon` duplicate guard. -/
noncomputable def lineResults (lex : DrugLexicon) (idx : Nat) (line : String) :
    List MatchCandidate :=
  let ld := mkLineData line
  if ld.line_tokens_raw.isEmpty then []
  else
    (lex.drugs.foldl
        (fun (st : List String × List MatchCandidate) d =>
          if thresholdOf lex d ld ≤ rawScore lex d ld then
            if st.1.contains d.canonical then st
            else (d.canonical :: st.1, st.2 ++ [mkCand lex d ld idx line])
          else st)
        ([], [])).2

/-- All pre-dedup results of `match_from_ocr_lines`. -/
noncomputable def matchResults (lex : DrugLexicon) (lines : List String) :
    List MatchCandidate :=
  (lines.enum.map fun p => lineResults lex p.1 p.2).flatten

/-- The `by_canon` dict update: keep the strictly higher score, keep the
insertion position of the first occurrence of a canonical. -/
noncomputable def upsertCand (acc : List MatchCandidate) (r : MatchCandidate) :
    List MatchCandidate :=
  match acc with
  | [] => [r]
  | c :: rest =>
    if c.canonical == r.canonical then (if c.score < r.score then r else c) :: rest
    else c :: upsertCand rest r

/-- Batch-level dedup: one candidate per canonical, the highest score kept. -/
noncomputable def dedupeByCanon (results : List MatchCandidate) : List MatchCandidate :=
  results.foldl upsertCand []

/-- Stable insertion for the descending sort (a later candidate goes after
earlier candidates with an equal score). -/
noncomputable def insertDesc (c : MatchCandidate) : List MatchCandidate → List MatchCandidate
  | [] => [c]
  | d :: rest => if d.score < c.score then c :: d :: rest else d :: insertDesc c rest

/-- `final.sort(key=score, reverse=True)`: stable descending sort. -/
noncomputable def sortDesc : List MatchCandidate → List MatchCandidate
  | [] => []
  | c :: rest => insertDesc c (sortDesc rest)

/-- `DrugLexicon.match_from_ocr_lines`: score every line against every
entry, keep accepted pairs, dedup by canonical and sort by descending
score. -/
noncomputable def match_from_ocr_lines (lex : DrugLexicon) (ocr_lines : List String) :
    List MatchCandidate :=
  sortDesc (dedupeByCanon (matchResults lex ocr_lines))

/-- ASCII letters and digits, for the class `[가-힣A-Za-z0-9]`. -/
def isAsciiAlnum (c : Char) : Bool := c.isAlpha || c.isDigit

/-- Greedy `p{0,n}`: drop up to `n` leading characters satisfying `p`. -/
def dropWhileUpTo (p : Char → Bool) : Nat → List Char → List Char
  | 0, t => t
  | _ + 1, [] => []
  | n + 1, c :: rest => if p c then dropWhileUpTo p n rest else c :: rest

/-- The class `[세요]` of the politeness suffix. -/
def isSeyo (c : Char) : Bool := c == '세' || c == '요'

/-- Alternative `공복[^가-힣A-Za-z0-9]{0,5}을\s*피하[세요]*` at the head of
the input (deterministic: `을` cannot be eaten by the negated class and
whitespace cannot start `피`). -/
def matchAvoidEmpty : List Char → Option (List Char)
  | '공' :: '복' :: t =>
    match dropWhileUpTo (fun c => !(isHangulSyl c || isAsciiAlnum c)) 5 t with
    | '을' :: t2 =>
      match t2.dropWhile Char.isWhitespace with
      | '피' :: '하' :: t4 => some (t4.dropWhile isSeyo)
      | _ => none
    | _ => none
  | _ => none

/-- Alternative `빈\s*속을\s*피하[세요]*` at the head of the input. -/
def matchAvoidHungry : List Char → Option (List Char)
  | '빈' :: t =>
    match t.dropWhile Char.isWhitespace with
    | '속' :: '을' :: t2 =>
      match t2.dropWhile Char.isWhitespace with
      | '피' :: '하' :: t4 => some (t4.dropWhile isSeyo)
      | _ => none
    | _ => none
  | _ => none

/-- The "avoid an empty stomach" rewrite of `_parse_usage_ranges`:
replace either alternative by `식후`, scanning left to right
(fuel-indexed; every match consumes at least one character, so the input
length suffices as fuel). -/
def subGongbokF : Nat → List Char → List Char
  | _, [] => []
  | 0, t => t
  | fuel + 1, c :: rest =>
    match matchAvoidEmpty (c :: rest) with
    | some rem => '식' :: '후' :: subGongbokF fuel rem
    | none =>
      match matchAvoidHungry (c :: rest) with
      | some rem => '식' :: '후' :: subGongbokF fuel rem
      | none => c :: subGongbokF fuel rest

/-- Digit-string value. -/
def natOfDigits (ds : List Char) : Nat := ds.foldl (fun n c => n * 10 + (c.toNat - 48)) 0

/-- The optional group `(?:\s*~\s*(\d+))?`: on success, the upper bound and
the rest; on failure the caller keeps the original position. -/
def tryTilde (t : List Char) : Option (Nat × List Char) :=
  match t.dropWhile Char.isWhitespace with
  | '~' :: t2 =>
    let t3 := t2.dropWhile Char.isWhitespace
    let ds := t3.takeWhile Char.isDigit
    if ds.isEmpty then none else some (natOfDigits ds, t3.dropWhile Char.isDigit)
  | _ => none

/-- The dose units `(정|캡슐|포|ml|mL)`, in source order. -/
def doseUnits : List String := ["정", "캡슐", "포", "ml", "mL"]

/-- `\s*` then one unit alternative. -/
def matchUnitAfterWs (t : List Char) : Option String :=
  let t1 := t.dropWhile Char.isWhitespace
  doseUnits.find? fun u => u.data.isPrefixOf t1

/-- `(\d+)(?:\s*~\s*(\d+))?` then a continuation on the rest. -/
def matchRangeThen (t : List Char) (k : Nat → Option Nat → List Char → Option α) :
    Option α :=
  let ds := t.takeWhile Char.isDigit
  if ds.isEmpty then none
  else
    let lo := natOfDigits ds
    let t4 := t.dropWhile Char.isDigit
    match tryTilde t4 with
    | some (hi, t5) => k lo (some hi) t5
    | none => k lo none t4

/-- `1회\s*(?:에\s*)?(\d+)(?:\s*~\s*(\d+))?\s*(정|캡슐|포|ml|mL)` at the head. -/
def matchDose1At : List Char → Option (Nat × Option Nat × String)
  | '1' :: '회' :: t1 =>
    let t2 := t1.dropWhile Char.isWhitespace
    let t3 :=
      match t2 with
      | '에' :: r => r.dropWhile Char.isWhitespace
      | _ => t2
    matchRangeThen t3 fun lo hi t5 =>
      match matchUnitAfterWs t5 with
      | some u => some (lo, hi, u)
      | none => none
  | _ => none

/-- `(\d+)(?:\s*~\s*(\d+))?\s*(정|캡슐|포|ml|mL)\s*씩` at the head. -/
def matchDose2At (t : List Char) : Option (Nat × Option Nat × String) :=
  matchRangeThen t fun lo hi t5 =>
    match matchUnitAfterWs t5 with
    | some u =>
      let t6 := (t5.dropWhile Char.isWhitespace).drop u.data.length
      -- `\s*` precedes the unit; consume it again to step past the unit text
      match t6.dropWhile Char.isWhitespace with
      | '씩' :: _ => some (lo, hi, u)
      | _ => none
    | none => none

/-- `re.search` position scan for a head matcher. -/
def searchPos (m : List Char → Option α) : List Char → Option α
  | [] => m []
  | c :: rest =>
    match m (c :: rest) with
    | some r => some r
    | none => searchPos m rest

/-- The frequency heads `(?:1일|하루|매일)`. -/
def freqHeads : List String := ["1일", "하루", "매일"]

/-- `(?:1일|하루|매일)\s*(\d+)(?:\s*~\s*(\d+))?\s*(?:회|번)` at the head. -/
def matchFreq1At (t : List Char) : Option (Nat × Option Nat) :=
  match freqHeads.find? (fun h => h.data.isPrefixOf t) with
  | some h =>
    let t2 := (t.drop h.data.length).dropWhile Char.isWhitespace
    matchRangeThen t2 fun lo hi t5 =>
      match t5.dropWhile Char.isWhitespace with
      | '회' :: _ => some (lo, hi)
      | '번' :: _ => some (lo, hi)
      | _ => none
  | none => none

/-- `\s*(?:복용|투여)` after the counter word of the frequency fallback. -/
def matchTakeVerb (lo : Nat) (hi : Option Nat) (t6 : List Char) : Option (Nat × Option Nat) :=
  match t6.dropWhile Char.isWhitespace with
  | '복' :: '용' :: _ => some (lo, hi)
  | '투' :: '여' :: _ => some (lo, hi)
  | _ => none

/-- `(\d+)(?:\s*~\s*(\d+))?\s*(?:회|번)\s*(?:복용|투여)` at the head. -/
def matchFreq2At (t : List Char) : Option (Nat × Option Nat) :=
  matchRangeThen t fun lo hi t5 =>
    match t5.dropWhile Char.isWhitespace with
    | '회' :: t6 => matchTakeVerb lo hi t6
    | '번' :: t6 => matchTakeVerb lo hi t6
    | _ => none

/-- `re.search(r'취침\s*전', t)`. -/
def searchSleepMark : List Char → Bool
  | [] => false
  | '취' :: '침' :: rest =>
    (match rest.dropWhile Char.isWhitespace with
     | '전' :: _ => true
     | _ => false) || searchSleepMark ('침' :: rest)
  | _ :: rest => searchSleepMark rest

/-- The structured result of `_parse_usage_ranges` (`dose_range`,
`freq_range` and `timing`, with `None` as `none`). -/
structure UsageRanges where
  dose_min : Option Nat
  dose_max : Option Nat
  dose_unit : String
  freq_min : Option Nat
  freq_max : Option Nat
  timing : String
deriving DecidableEq

/-- The all-unset `_parse_usage_ranges` result. -/
def emptyRanges : UsageRanges :=
  { dose_min := none, dose_max := none, dose_unit := "", freq_min := none, freq_max := none,
    timing := "" }

/-- `_parse_usage_ranges`: rewrite "avoid empty stomach" to after-meal, then
extract the one-dose range, the daily-frequency range and the first
matching timing label. -/
def _parse_usage_ranges (usage_text : String) : UsageRanges :=
  if usage_text.data.isEmpty then emptyRanges
  else
    let norm := subGongbokF usage_text.data.length usage_text.data
    let dose :=
      match searchPos matchDose1At norm with
      | some r => some r
      | none => searchPos matchDose2At norm
    let freq :=
      match searchPos matchFreq1At norm with
      | some r => some r
      | none => searchPos matchFreq2At norm
    let timing :=
      if containsSeq "식후".data norm then "식후"
      else if containsSeq "식전".data norm then "식전"
      else if containsSeq "식간".data norm then "식간"
      else if searchSleepMark norm then "취침전"
      else if containsSeq "공복".data norm then "공복"
      else ""
    { dose_min := dose.map (·.1),
      dose_max := dose.map fun r => (r.2.1).getD r.1,
      dose_unit := (dose.map (·.2.2)).getD "",
      freq_min := freq.map (·.1),
      freq_max := freq.map fun r => r.2.getD r.1,
      timing := timing }

example :
    _parse_usage_ranges "1회 1~2정, 1일 3회 식후 30분에 복용" =
      { dose_min := some 1, dose_max := some 2, dose_unit := "정", freq_min := some 3,
        freq_max := some 3, timing := "식후" } := by decide

example : _parse_usage_ranges "공복을 피하세요. 하루 2번 복용" =
    { emptyRanges with freq_min := some 2, freq_max := some 2, timing := "식후" } := by decide

/-- Split step for `re.split(r'[\n\.]+', text)` (splitting on single
separators and later dropping blank pieces is equivalent to splitting on
separator runs). -/
def splitDotNlAux (c : Char) (st : List Char × List (List Char)) :
    List Char × List (List Char) :=
  if c == '\n' || c == '.' then ([], st.1 :: st.2) else (c :: st.1, st.2)

/-- All pieces of the sentence split, including empty ones. -/
def splitDotNl (t : List Char) : List (List Char) :=
  let st := t.foldr splitDotNlAux ([], [])
  st.1 :: st.2

/-- Match a sequence of literal segments separated by `\s*`. -/
def matchSegs : List (List Char) → List Char → Bool
  | [], _ => true
  | s :: rest, t =>
    s.isPrefixOf t && matchSegs rest ((t.drop s.length).dropWhile Char.isWhitespace)

/-- `re.search` for any of several segment patterns. -/
def scanAnySegs (pats : List (List (List Char))) : List Char → Bool
  | [] => pats.any fun p => matchSegs p []
  | c :: rest => pats.any (fun p => matchSegs p (c :: rest)) || scanAnySegs pats rest

/-- The child-age markers `(만\s*8세|만\s*15세\s*미만|소아|어린이)`. -/
def childPats : List (List (List Char)) :=
  [["만".data, "8세".data], ["만".data, "15세".data, "미만".data], ["소아".data], ["어린이".data]]

/-- The adult markers `(성인|만\s*15세\s*이상)`. -/
def adultPats : List (List (List Char)) :=
  [["성인".data], ["만".data, "15세".data, "이상".data]]

/-- `_split_usage_by_age`: bucket the sentences of a usage text into child
and adult blocks (space-joined), `none` when a bucket is empty. -/
def _split_usage_by_age (usage_text : String) : Option String × Option String :=
  if usage_text.data.isEmpty then (none, none)
  else
    let lines := ((splitDotNl usage_text.data).map stripWs).filter fun s => !s.isEmpty
    let childLines := lines.filter (scanAnySegs childPats)
    let adultLines := lines.filter (scanAnySegs adultPats)
    ((if childLines.isEmpty then none else some ⟨(childLines.intersperse " ".data).flatten⟩),
     (if adultLines.isEmpty then none else some ⟨(adultLines.intersperse " ".data).flatten⟩))

example :
    _split_usage_by_age "성인 1회 2정. 만 8세 이상 소아 1회 1정" =
      (some "만 8세 이상 소아 1회 1정", some "성인 1회 2정") := by decide

/-- A normalized medicine row of `parse_prescription`.  The source builds a
dict also holding the constant age bounds (child 8–14, adult 15+) next to
each `ranges` block; only the ranges themselves vary and are kept here,
with `none` for the `{}` of the no-information path. -/
structure MedicineRecord where
  name : String
  per_dose : Int
  unit : String
  frequency : Int
  timing : String
  duration : Int
  child_ranges : Option UsageRanges
  adult_ranges : Option UsageRanges
  classification : String
deriving DecidableEq

/-- One alarm event of `generate_alarms`. -/
structure AlarmEvent where
  time : String
  condition : String
  medicine : String
  per_dose : Int
  meal : String
deriving DecidableEq

/-- `self.default_meal_times` as (hour, minute). -/
def default_meal_times : String → Nat × Nat
  | "breakfast" => (8, 0)
  | "lunch" => (12, 0)
  | "dinner" => (19, 0)
  | _ => (0, 0)

/-- The Korean meal names used in condition labels. -/
def meal_names : String → String
  | "breakfast" => "아침"
  | "lunch" => "점심"
  | "dinner" => "저녁"
  | _ => ""

/-- `f"{n:02d}"` for the values produced here (0 ≤ n < 100). -/
def twoDigit (n : Nat) : String := if n < 10 then "0" ++ toString n else toString n

/-- The meal-anchored alarms of one record for a given offset from meal
time: one event per slot of `['breakfast','lunch','dinner'][:min(freq,3)]`,
with Python's floor division and nonnegative modulo for the 24-hour
wraparound. -/
def mealAlarms (med : MedicineRecord) (offset : Int) : List AlarmEvent :=
  (["breakfast", "lunch", "dinner"].take (min med.frequency 3).toNat).map fun mealKey =>
    let bt := default_meal_times mealKey
    let total : Int := (bt.1 : Int) * 60 + (bt.2 : Int) + offset
    let alarm_hour := (total.fdiv 60).emod 24
    let alarm_minute := total.emod 60
    { time := twoDigit alarm_hour.toNat ++ ":" ++ twoDigit alarm_minute.toNat,
      condition :=
        if med.timing ≠ "정보없음" then meal_names mealKey ++ " " ++ med.timing
        else meal_names mealKey,
      medicine := med.name, per_dose := med.per_dose, meal := mealKey }

/-- The per-record body of the `generate_alarms` loop: skip frequency 0,
classify the timing by substring containment in the fixed order
after-meal / before-meal / between-meals / bedtime, emit either the single
22:00 bedtime event or the meal-anchored events. -/
def alarmsForMed (med : MedicineRecord) : List AlarmEvent :=
  if med.frequency = 0 then []
  else if containsSeq "식후".data med.timing.data then mealAlarms med 30
  else if containsSeq "식전".data med.timing.data then mealAlarms med (-30)
  else if containsSeq "식간".data med.timing.data then mealAlarms med 120
  else if containsSeq "취침전".data med.timing.data then
    [{ time := "22:00", condition := "취침 전", medicine := med.name,
       per_dose := med.per_dose, meal := "bedtime" }]
  else mealAlarms med 0

/-- `MedicineAPIService.generate_alarms`. -/
def generate_alarms (medicines : List MedicineRecord) : List AlarmEvent :=
  (medicines.map alarmsForMed).flatten

/-- The dosage units `(mg|g|ml|%|밀리그램)`, in source order. -/
def dosageUnits : List String := ["mg", "g", "ml", "%", "밀리그램"]

/-- `(\d+(?:\.\d+)?)\s*(mg|g|ml|%|밀리그램)` at the head of the input:
the number text and the unit (with the spelled-out milligram normalized
to `mg`). -/
def matchDosageAt (t : List Char) : Option String :=
  let ds := t.takeWhile Char.isDigit
  if ds.isEmpty then none
  else
    let t1 := t.dropWhile Char.isDigit
    let num :=
      match t1 with
      | '.' :: t2 =>
        let ds2 := t2.takeWhile Char.isDigit
        if ds2.isEmpty then (ds, t1) else (ds ++ '.' :: ds2, t2.dropWhile Char.isDigit)
      | _ => (ds, t1)
    match dosageUnits.find? (fun u => u.data.isPrefixOf (num.2.dropWhile Char.isWhitespace)) with
    | some u => some ⟨num.1 ++ (if u == "밀리그램" then "mg" else u).data⟩
    | none => none

/-- `_extract_dosage_info`: scan the ±2-line window around the matched line
for the first dosage suffix. -/
def _extract_dosage_info (lines : List String) (target_line_idx : Nat) : Option String :=
  let start := target_line_idx - 2
  let window := (lines.drop start).take (target_line_idx + 3 - start)
  window.findSome? fun line => searchPos matchDosageAt line.data

example : _extract_dosage_info ["타이레놀정", "500mg 30정"] 0 = some "500mg" := by decide

/-- The usage text and classification consumed from one drug-information
lookup (`get_medicine_info` result fields read by `parse_prescription`). -/
structure ApiInfo where
  usage : String
  classification : String

/-- A candidate row of the `parse_prescription` response. -/
structure ParseCandidate where
  canonical : String
  display_name : String
  score : ℝ
  matched_line : String
  line_index : Nat

/-- The `parse_prescription` response. -/
structure ParseResult where
  medicines : List MedicineRecord
  candidates : List ParseCandidate

/-- Python `a or b or 0` over optional counts (`None` and `0` are falsy). -/
def pyOrNat (a b : Option Nat) : Nat :=
  match a with
  | some n => if n = 0 then (match b with | some m => m | none => 0) else n
  | none => (match b with | some m => m | none => 0)

/-- Python `a or b or d` over strings (the empty string is falsy). -/
def pyOrStr (a b d : String) : String :=
  if a ≠ "" then a else if b ≠ "" then b else d

/-- Line cleaning of `parse_prescription`: normalize, drop empty lines,
drop lines whose confidence is below 0.50, drop structural noise lines. -/
def cleanLines (texts : List String) (scores : List ℚ) : List String :=
  texts.enum.filterMap fun p =>
    let norm := _normalize_ocr p.2
    if norm.data.isEmpty then none
    else
      match scores.get? p.1 with
      | some sc =>
        if sc < 1 / 2 then none else if _is_noise_line norm then none else some norm
      | none => if _is_noise_line norm then none else some norm

/-- The medicine row built for one resolved name from a drug-information
lookup (the per-name body of the `parse_prescription` loop). -/
def mkMedRecord (api : String → Option ApiInfo) (name display : String) : MedicineRecord :=
  match api name with
  | some info =>
    let classification := if info.classification = "" then "일반의약품" else info.classification
    let age := _split_usage_by_age info.usage
    let childR := match age.1 with | some c => _parse_usage_ranges c | none => emptyRanges
    let adultR := match age.2 with | some a => _parse_usage_ranges a | none => emptyRanges
    { name := display,
      per_dose := (pyOrNat adultR.dose_max childR.dose_max : Nat),
      unit := pyOrStr adultR.dose_unit childR.dose_unit "",
      frequency := (pyOrNat adultR.freq_max childR.freq_max : Nat),
      timing := pyOrStr adultR.timing childR.timing "식후",
      duration := 0, child_ranges := some childR, adult_ranges := some adultR,
      classification := classification }
  | none =>
    { name := display, per_dose := 0, unit := "", frequency := 0, timing := "정보없음",
      duration := 0, child_ranges := none, adult_ranges := none,
      classification := "일반의약품" }

/-- The sentinel row returned when no medicine resolves. -/
def sentinelRecord : MedicineRecord :=
  { name := "약 정보 없음 (Lexicon 확인 필요)", per_dose := 0, unit := "", frequency := 0,
    timing := "정보없음", duration := 0, child_ranges := none, adult_ranges := none,
    classification := "일반의약품" }

/-- `MedicineAPIService.parse_prescription`, with the drug-information
lookup passed in as the external collaborator it is.  The `try/except`
wrapper of the source converts unexpected faults to a "parse error"
sentinel; the embedding is total, so that path has no counterpart here. -/
noncomputable def parse_prescription (lex : Option DrugLexicon) (api : String → Option ApiInfo)
    (texts : List String) (scores : List ℚ) : ParseResult :=
  let clean := cleanLines texts scores
  let candidates : List ParseCandidate :=
    match lex with
    | none => []
    | some lx =>
      (dedupeByCanon (match_from_ocr_lines lx clean)).map fun m =>
        { canonical := m.canonical,
          display_name :=
            match _extract_dosage_info clean m.line_index with
            | some d => m.canonical ++ " " ++ d
            | none => m.canonical,
          score := m.score, matched_line := m.matched_line, line_index := m.line_index }
  let medicines0 := candidates.map fun c => mkMedRecord api c.canonical c.display_name
  { medicines := if medicines0.isEmpty then [sentinelRecord] else medicines0,
    candidates := candidates }

/-- The meal slots of the emitted events are the first `min(freq,3)` slots
of the fixed breakfast/lunch/dinner order. -/
theorem mealAlarms_map_meal (med : MedicineRecord) (off : Int) :
    (mealAlarms med off).map AlarmEvent.meal =
      ["breakfast", "lunch", "dinner"].take (min med.frequency 3).toNat := by
  simp only [mealAlarms, List.map_map]
  conv_rhs => rw [← List.map_id (List.take (min med.frequency 3).toNat _)]
  rfl

/-- `mealAlarms` emits exactly `min(freq,3)` events. -/
theorem mealAlarms_length (med : MedicineRecord) (off : Int) :
    (mealAlarms med off).length = min (min med.frequency 3).toNat 3 := by
  simp [mealAlarms]

/-- **C4.** Zero-frequency suppression: for every `MedicineRecord` whose
resolved frequency is 0, `generate_alarms` emits zero events for that
record, whatever its timing value. -/
theorem c4_zero_frequency_suppression (med : MedicineRecord)
    (h : med.frequency = 0) :
    alarmsForMed med = [] ∧ generate_alarms [med] = [] := by
  constructor
  · simp [alarmsForMed, h]
  · simp [generate_alarms, alarmsForMed, h]

/-- Witness for C4 at a concrete bedtime-timed record of frequency 0. -/
theorem c4_zero_frequency_suppression_witness :
    ({ name := "A", per_dose := 1, unit := "", frequency := 0, timing := "취침전",
       duration := 0, child_ranges := none, adult_ranges := none,
       classification := "일반의약품" } : MedicineRecord).frequency = 0 ∧
      (alarmsForMed
          { name := "A", per_dose := 1, unit := "", frequency := 0, timing := "취침전",
            duration := 0, child_ranges := none, adult_ranges := none,
            classification := "일반의약품" } = [] ∧
        generate_alarms
            [{ name := "A", per_dose := 1, unit := "", frequency := 0, timing := "취침전",
               duration := 0, child_ranges := none, adult_ranges := none,
               classification := "일반의약품" }] = []) :=
  ⟨rfl, c4_zero_frequency_suppression _ rfl⟩

/-- **C5 counterexample.** A bedtime record with frequency 0 yields zero
events, not the single 22:00 event the claim promises "regardless of its
frequency value": the frequency-0 skip runs before the timing dispatch. -/
theorem c5_bedtime_counterexample :
    ¬ (alarmsForMed
          { name := "약", per_dose := 1, unit := "", frequency := 0, timing := "취침전",
            duration := 0, child_ranges := none, adult_ranges := none,
            classification := "일반의약품" }).length = 1 := by
  decide

/-- **C5 (amended).** Any `MedicineRecord` with nonzero frequency whose
timing classifies as bedtime (contains the bedtime marker and none of the
meal markers) yields exactly one event, at `22:00`, with `meal = bedtime`
and the before-bedtime condition label. -/
theorem c5_bedtime_singularity (med : MedicineRecord)
    (hf : med.frequency ≠ 0)
    (hb : containsSeq "취침전".data med.timing.data = true)
    (h1 : containsSeq "식후".data med.timing.data = false)
    (h2 : containsSeq "식전".data med.timing.data = false)
    (h3 : containsSeq "식간".data med.timing.data = false) :
    alarmsForMed med =
      [{ time := "22:00", condition := "취침 전", medicine := med.name,
         per_dose := med.per_dose, meal := "bedtime" }] := by
  simp [alarmsForMed, hf, hb, h1, h2, h3]

/-- Witness for C5 at a concrete bedtime record of frequency 2. -/
theorem c5_bedtime_singularity_witness :
    ({ name := "약", per_dose := 1, unit := "", frequency := 2, timing := "취침전",
       duration := 0, child_ranges := none, adult_ranges := none,
       classification := "일반의약품" } : MedicineRecord).frequency ≠ 0 ∧
      alarmsForMed
          { name := "약", per_dose := 1, unit := "", frequency := 2, timing := "취침전",
            duration := 0, child_ranges := none, adult_ranges := none,
            classification := "일반의약품" } =
        [{ time := "22:00", condition := "취침 전", medicine := "약", per_dose := 1,
           meal := "bedtime" }] :=
  ⟨by decide, c5_bedtime_singularity _ (by decide) (by decide) (by decide) (by decide)
    (by decide)⟩

/-- **C6.** Frequency cap: a non-bedtime record (one whose timing does not
classify to the bedtime branch) with frequency ≥ 1 yields exactly
`min(freq, 3)` events, allocated to breakfast, lunch, dinner in that fixed
order; no fourth daily slot is ever produced. -/
theorem c6_frequency_cap (med : MedicineRecord)
    (hf : 1 ≤ med.frequency)
    (hb : containsSeq "식후".data med.timing.data = true ∨
      containsSeq "식전".data med.timing.data = true ∨
      containsSeq "식간".data med.timing.data = true ∨
      containsSeq "취침전".data med.timing.data = false) :
    (alarmsForMed med).map AlarmEvent.meal =
        ["breakfast", "lunch", "dinner"].take (min med.frequency 3).toNat ∧
      (alarmsForMed med).length = (min med.frequency 3).toNat := by
  have hf0 : ¬ med.frequency = 0 := by omega
  have hcap : min (min med.frequency 3).toNat 3 = (min med.frequency 3).toNat := by omega
  have hgoal : ∀ off : Int,
      (mealAlarms med off).map AlarmEvent.meal =
          ["breakfast", "lunch", "dinner"].take (min med.frequency 3).toNat ∧
        (mealAlarms med off).length = (min med.frequency 3).toNat := by
    intro off
    exact ⟨mealAlarms_map_meal med off, by rw [mealAlarms_length med off, hcap]⟩
  unfold alarmsForMed
  rw [if_neg hf0]
  split
  · exact hgoal 30
  · next h1 =>
    split
    · exact hgoal (-30)
    · next h2 =>
      split
      · exact hgoal 120
      · next h3 =>
        split
        · next h4 =>
          exfalso
          rcases hb with h | h | h | h
          · exact h1 h
          · exact h2 h
          · exact h3 h
          · rw [h4] at h; exact absurd h (by simp)
        · exact hgoal 0

/-- Witness for C6 at a concrete after-meal record of frequency 5: exactly
three events, one per meal slot. -/
theorem c6_frequency_cap_witness :
    (1 : Int) ≤
        ({ name := "A", per_dose := 1, unit := "", frequency := 5, timing := "식후",
           duration := 0, child_ranges := none, adult_ranges := none,
           classification := "일반의약품" } : MedicineRecord).frequency ∧
      ((alarmsForMed
              { name := "A", per_dose := 1, unit := "", frequency := 5, timing := "식후",
                duration := 0, child_ranges := none, adult_ranges := none,
                classification := "일반의약품" }).map AlarmEvent.meal =
          ["breakfast", "lunch", "dinner"].take
            (min
                ({ name := "A", per_dose := 1, unit := "", frequency := 5, timing := "식후",
                   duration := 0, child_ranges := none, adult_ranges := none,
                   classification := "일반의약품" } : MedicineRecord).frequency
                3).toNat ∧
        (alarmsForMed
              { name := "A", per_dose := 1, unit := "", frequency := 5, timing := "식후",
                duration := 0, child_ranges := none, adult_ranges := none,
                classification := "일반의약품" }).length =
          (min
              ({ name := "A", per_dose := 1, unit := "", frequency := 5, timing := "식후",
                 duration := 0, child_ranges := none, adult_ranges := none,
                 classification := "일반의약품" } : MedicineRecord).frequency
              3).toNat) :=
  ⟨by decide, c6_frequency_cap _ (by decide) (by decide)⟩

/-- **C10.** Timing dispatch order: when the timing string contains both the
after-meal and the bedtime markers, the after-meal branch wins: a record
with frequency ≥ 1 yields the meal-anchored events with the +30-minute
offset, and no 22:00 bedtime event. -/
theorem c10_after_meal_wins (med : MedicineRecord)
    (hf : 1 ≤ med.frequency)
    (h1 : containsSeq "식후".data med.timing.data = true)
    (hb : containsSeq "취침전".data med.timing.data = true) :
    alarmsForMed med = mealAlarms med 30 ∧
      List.Forall (fun e => e.meal ≠ "bedtime" ∧ e.time ≠ "22:00") (alarmsForMed med) := by
  have hf0 : ¬ med.frequency = 0 := by omega
  have heq : alarmsForMed med = mealAlarms med 30 := by
    simp [alarmsForMed, hf0, h1]
  refine ⟨heq, ?_⟩
  rw [heq, List.forall_iff_forall_mem]
  intro e he
  simp only [mealAlarms, List.mem_map] at he
  obtain ⟨k, hk, hke⟩ := he
  have hk3 : k ∈ (["breakfast", "lunch", "dinner"] : List String) := List.take_subset _ _ hk
  subst hke
  fin_cases hk3
  · exact ⟨show ("breakfast" : String) ≠ "bedtime" by decide,
      show ("08:30" : String) ≠ "22:00" by decide⟩
  · exact ⟨show ("lunch" : String) ≠ "bedtime" by decide,
      show ("12:30" : String) ≠ "22:00" by decide⟩
  · exact ⟨show ("dinner" : String) ≠ "bedtime" by decide,
      show ("19:30" : String) ≠ "22:00" by decide⟩

/-- Witness for C10 at a concrete record whose timing mentions both
after-meal and bedtime. -/
theorem c10_after_meal_wins_witness :
    (1 : Int) ≤
        ({ name := "A", per_dose := 1, unit := "", frequency := 2, timing := "식후 취침전",
           duration := 0, child_ranges := none, adult_ranges := none,
           classification := "일반의약품" } : MedicineRecord).frequency ∧
      (alarmsForMed
            { name := "A", per_dose := 1, unit := "", frequency := 2, timing := "식후 취침전",
              duration := 0, child_ranges := none, adult_ranges := none,
              classification := "일반의약품" } =
          mealAlarms
            { name := "A", per_dose := 1, unit := "", frequency := 2, timing := "식후 취침전",
              duration := 0, child_ranges := none, adult_ranges := none,
              classification := "일반의약품" }
            30 ∧
        List.Forall (fun e => e.meal ≠ "bedtime" ∧ e.time ≠ "22:00")
          (alarmsForMed
            { name := "A", per_dose := 1, unit := "", frequency := 2, timing := "식후 취침전",
              duration := 0, child_ranges := none, adult_ranges := none,
              classification := "일반의약품" })) :=
  ⟨by decide, c10_after_meal_wins _ (by decide) (by decide) (by decide)⟩

/-- **C7.** Scenario B: parsing `"1회 1~2정, 1일 3회 식후 30분에 복용"` yields
dose range 1–2 with unit `정`, frequency range 3–3, and the after-meal
timing code. -/
theorem c7_scenario_b :
    _parse_usage_ranges "1회 1~2정, 1일 3회 식후 30분에 복용" =
      { dose_min := some 1, dose_max := some 2, dose_unit := "정", freq_min := some 3,
        freq_max := some 3, timing := "식후" } := by
  decide

/-- **C9.** When no candidate resolves, `parse_prescription` returns the
single sentinel record (named "no medicine found — check lexicon", zero
per-dose, zero frequency, unknown timing) instead of an empty medicines
list. -/
theorem c9_sentinel_record (lex : Option DrugLexicon) (api : String → Option ApiInfo)
    (texts : List String) (scores : List ℚ)
    (h : (parse_prescription lex api texts scores).candidates = []) :
    (parse_prescription lex api texts scores).medicines = [sentinelRecord] ∧
      sentinelRecord.name = "약 정보 없음 (Lexicon 확인 필요)" ∧
      sentinelRecord.per_dose = 0 ∧ sentinelRecord.frequency = 0 ∧
      sentinelRecord.timing = "정보없음" := by
  refine ⟨?_, rfl, rfl, rfl, rfl⟩
  unfold parse_prescription at h ⊢
  simp only at h ⊢
  rw [h]
  simp

/-!
### Idempotence analysis of `_normalize_ocr`

The framework below characterizes the repair scans of steps 5, 6 and 8 as
members of a family of left-to-right scanners whose outputs either keep
the head character, insert a `g` after it, or emit the replacement text
`정10mg`; this is enough to show that, once a pattern has been rewritten
away, later steps never reintroduce it.  Step 3 is the step that breaks
idempotence (its non-overlapping scan can leave a digit-`l`-digit group
behind, and step 4 can create one), so the fixed-point argument is carried
out on inputs without the letter `l`.
-/

/-- Match a list of character predicates followed by a `\b` boundary. -/
def startsPat : List (Char → Bool) → List Char → Bool
  | [], t => bdryB t
  | _ :: _, [] => false
  | p :: ps, c :: t => p c && startsPat ps t

/-- Some suffix of the input matches (the scan of `re.sub` finds a match). -/
def hasMatch (s : List Char → Bool) : List Char → Bool
  | [] => s []
  | c :: rest => s (c :: rest) || hasMatch s rest

/-- The pattern of step 5, `(정)1[에eE][mM]9\b`. -/
def pat5 : List (Char → Bool) :=
  [fun c => c == '정', fun c => c == '1', isE5, isMm, fun c => c == '9']

/-- The pattern of step 6, `(정)1[이iIlL][mM]\b`. -/
def pat6 : List (Char → Bool) :=
  [fun c => c == '정', fun c => c == '1', isI6, isMm]

/-- A family of scanners: on a cons, a member either keeps the head and
continues with a member, keeps the head and inserts a `g` after it, or
emits the replacement `정10mg` and continues with a member on a suffix. -/
def ScanFam (F : (List Char → List Char) → Prop) : Prop :=
  ∀ f, F f → f [] = [] ∧ ∀ c t,
    (∃ g, F g ∧ f (c :: t) = c :: g t) ∨
    (∃ g, F g ∧ f (c :: t) = c :: 'g' :: g t) ∨
    (∃ g rest, F g ∧ rest <:+ t ∧
      f (c :: t) = '정' :: '1' :: '0' :: 'm' :: 'g' :: g rest)

/-- A family of scanners for the pattern `P`: as `ScanFam`, but the
head-keeping case only arises at positions where `P` does not match. -/
def ScanFamP (P : List (Char → Bool)) (F : (List Char → List Char) → Prop) : Prop :=
  ∀ f, F f → f [] = [] ∧ ∀ c t,
    (startsPat P (c :: t) = false ∧ ∃ g, F g ∧ f (c :: t) = c :: g t) ∨
    (∃ g rest, F g ∧ rest <:+ t ∧
      f (c :: t) = '정' :: '1' :: '0' :: 'm' :: 'g' :: g rest)

theorem ScanFamP.toScanFam {P F} (h : ScanFamP P F) : ScanFam F := by
  intro f hf
  refine ⟨(h f hf).1, fun c t => ?_⟩
  rcases (h f hf).2 c t with ⟨_, g, hg, he⟩ | ⟨g, rest, hg, hsuf, he⟩
  · exact Or.inl ⟨g, hg, he⟩
  · exact Or.inr (Or.inr ⟨g, rest, hg, hsuf, he⟩)

/-- Each tail of the pattern rejects the replacement text and an inserted
`g` — the conditions the blocking argument drills through. -/
def DigOk : List (Char → Bool) → Prop
  | [] => True
  | p :: ps =>
    (∀ X, startsPat (p :: ps) ('정' :: '1' :: '0' :: 'm' :: 'g' :: X) = false) ∧
    (∀ X, startsPat (p :: ps) ('g' :: X) = false) ∧ DigOk ps

theorem DigOk.g_block {ps} (h : DigOk ps) (X : List Char) :
    startsPat ps ('g' :: X) = false := by
  cases ps with
  | nil => simp [startsPat, bdryB, isWordChar]
  | cons p ps => exact h.2.1 X

theorem DigOk.repl_block {ps} (h : DigOk ps) (X : List Char) :
    startsPat ps ('정' :: '1' :: '0' :: 'm' :: 'g' :: X) = false := by
  cases ps with
  | nil => simp [startsPat, bdryB, isWordChar]
  | cons p ps => exact h.1 X

/-- Blocking lemma: a scanner of the family cannot create a pattern match
at a position where none was before. -/
theorem digPat {F} (hF : ScanFam F) :
    ∀ ps, DigOk ps → ∀ f, F f → ∀ t, startsPat ps t = false →
      startsPat ps (f t) = false := by
  intro ps
  induction ps with
  | nil =>
    intro _ f hf t h
    cases t with
    | nil => simp [startsPat, bdryB] at h
    | cons w t2 =>
      simp only [startsPat, bdryB, Bool.not_eq_false] at h
      rcases (hF f hf).2 w t2 with ⟨g, _, he⟩ | ⟨g, _, he⟩ | ⟨g, rest, _, _, he⟩ <;> rw [he]
      · simp [startsPat, bdryB, h]
      · simp [startsPat, bdryB, h]
      · simp [startsPat, bdryB, show isWordChar '정' = true from by decide]
  | cons p ps ih =>
    intro hok f hf t h
    cases t with
    | nil => rw [(hF f hf).1]; exact h
    | cons c t2 =>
      rcases (hF f hf).2 c t2 with ⟨g, hg, he⟩ | ⟨g, hg, he⟩ | ⟨g, rest, hg, _, he⟩
      · rw [he]
        simp only [startsPat] at h ⊢
        cases hpc : p c with
        | false => simp [hpc]
        | true =>
          simp only [hpc, Bool.true_and] at h ⊢
          exact ih hok.2.2 g hg t2 h
      · rw [he]
        simp only [startsPat]
        cases hpc : p c with
        | false => simp [hpc]
        | true => simp only [hpc, Bool.true_and]; exact hok.2.2.g_block _
      · rw [he]; exact hok.1 _

theorem hasMatch_cons (s : List Char → Bool) (c : Char) (t : List Char) :
    hasMatch s (c :: t) = (s (c :: t) || hasMatch s t) := rfl

theorem hasMatch_suffix {s : List Char → Bool} {r t : List Char}
    (h : hasMatch s t = false) (hsuf : r <:+ t) : hasMatch s r = false := by
  obtain ⟨pre, rfl⟩ := hsuf
  induction pre with
  | nil => exact h
  | cons a pre ih =>
    rw [List.cons_append, hasMatch_cons] at h
    exact ih (Bool.or_eq_false_iff.mp h).2

/-- Once a pattern is absent, a scanner of the family keeps it absent. -/
theorem presPat {F} (hF : ScanFam F) {p0 : Char → Bool} {ps : List (Char → Bool)}
    (hok : DigOk (p0 :: ps)) (h1 : p0 '1' = false) (h0 : p0 '0' = false)
    (hm : p0 'm' = false) (hgc : p0 'g' = false) :
    ∀ n t f, t.length ≤ n → F f → hasMatch (startsPat (p0 :: ps)) t = false →
      hasMatch (startsPat (p0 :: ps)) (f t) = false := by
  intro n
  induction n with
  | zero =>
    intro t f hlen hf h
    have ht : t = [] := List.length_eq_zero.mp (Nat.le_zero.mp hlen)
    subst ht; rw [(hF f hf).1]; exact h
  | succ n ih =>
    intro t f hlen hf h
    cases t with
    | nil => rw [(hF f hf).1]; exact h
    | cons c t2 =>
      rw [hasMatch_cons] at h
      obtain ⟨hh, ht⟩ := Bool.or_eq_false_iff.mp h
      have hlen2 : t2.length ≤ n := by simp at hlen; omega
      have hdig : startsPat (p0 :: ps) (f (c :: t2)) = false := digPat hF _ hok f hf _ hh
      rcases (hF f hf).2 c t2 with ⟨g, hg', he⟩ | ⟨g, hg', he⟩ | ⟨g, rest, hg', hsuf, he⟩
      · rw [he] at hdig ⊢
        rw [hasMatch_cons]
        exact Bool.or_eq_false_iff.mpr ⟨hdig, ih t2 g hlen2 hg' ht⟩
      · rw [he] at hdig ⊢
        rw [hasMatch_cons, hasMatch_cons]
        refine Bool.or_eq_false_iff.mpr ⟨hdig, Bool.or_eq_false_iff.mpr ⟨?_, ih t2 g hlen2 hg' ht⟩⟩
        simp [startsPat, hgc]
      · rw [he] at hdig ⊢
        have hrest : hasMatch (startsPat (p0 :: ps)) rest = false := hasMatch_suffix ht hsuf
        have hlenr : rest.length ≤ n := le_trans hsuf.length_le hlen2
        rw [hasMatch_cons]
        refine Bool.or_eq_false_iff.mpr ⟨hdig, ?_⟩
        rw [hasMatch_cons]
        refine Bool.or_eq_false_iff.mpr ⟨by simp [startsPat, h1], ?_⟩
        rw [hasMatch_cons]
        refine Bool.or_eq_false_iff.mpr ⟨by simp [startsPat, h0], ?_⟩
        rw [hasMatch_cons]
        refine Bool.or_eq_false_iff.mpr ⟨by simp [startsPat, hm], ?_⟩
        rw [hasMatch_cons]
        refine Bool.or_eq_false_iff.mpr ⟨by simp [startsPat, hgc], ?_⟩
        exact ih rest g hlenr hg' hrest

/-- A scanner of a pattern-indexed family leaves no match of its own
pattern behind. -/
theorem selfPat {F} {p0 : Char → Bool} {ps : List (Char → Bool)}
    (hFP : ScanFamP (p0 :: ps) F) (hok : DigOk (p0 :: ps))
    (h1 : p0 '1' = false) (h0 : p0 '0' = false) (hm : p0 'm' = false)
    (hgc : p0 'g' = false) :
    ∀ n t f, t.length ≤ n → F f → hasMatch (startsPat (p0 :: ps)) (f t) = false := by
  intro n
  induction n with
  | zero =>
    intro t f hlen hf
    have ht : t = [] := List.length_eq_zero.mp (Nat.le_zero.mp hlen)
    subst ht; rw [(hFP f hf).1]; rfl
  | succ n ih =>
    intro t f hlen hf
    cases t with
    | nil => rw [(hFP f hf).1]; rfl
    | cons c t2 =>
      have hlen2 : t2.length ≤ n := by simp at hlen; omega
      rcases (hFP f hf).2 c t2 with ⟨hh, g, hg', he⟩ | ⟨g, rest, hg', hsuf, he⟩
      · have hdig : startsPat (p0 :: ps) (f (c :: t2)) = false :=
          digPat hFP.toScanFam _ hok f hf _ hh
        rw [he] at hdig ⊢
        rw [hasMatch_cons]
        exact Bool.or_eq_false_iff.mpr ⟨hdig, ih t2 g hlen2 hg'⟩
      · rw [he]
        have hlenr : rest.length ≤ n := le_trans hsuf.length_le hlen2
        rw [hasMatch_cons]
        refine Bool.or_eq_false_iff.mpr ⟨hok.1 _, ?_⟩
        rw [hasMatch_cons]
        refine Bool.or_eq_false_iff.mpr ⟨by simp [startsPat, h1], ?_⟩
        rw [hasMatch_cons]
        refine Bool.or_eq_false_iff.mpr ⟨by simp [startsPat, h0], ?_⟩
        rw [hasMatch_cons]
        refine Bool.or_eq_false_iff.mpr ⟨by simp [startsPat, hm], ?_⟩
        rw [hasMatch_cons]
        refine Bool.or_eq_false_iff.mpr ⟨by simp [startsPat, hgc], ?_⟩
        exact ih rest g hlenr hg'

/-- A scanner of the family only outputs input characters or characters of
the replacement text. -/
theorem memScan {F} (hF : ScanFam F) :
    ∀ n t f x, t.length ≤ n → F f → x ∈ f t →
      x ∈ t ∨ x ∈ ['정', '1', '0', 'm', 'g'] := by
  intro n
  induction n with
  | zero =>
    intro t f x hlen hf hx
    have ht : t = [] := List.length_eq_zero.mp (Nat.le_zero.mp hlen)
    subst ht; rw [(hF f hf).1] at hx; simp at hx
  | succ n ih =>
    intro t f x hlen hf hx
    cases t with
    | nil => rw [(hF f hf).1] at hx; simp at hx
    | cons c t2 =>
      have hlen2 : t2.length ≤ n := by simp at hlen; omega
      rcases (hF f hf).2 c t2 with ⟨g, hg', he⟩ | ⟨g, hg', he⟩ | ⟨g, rest, hg', hsuf, he⟩
      · rw [he] at hx
        rcases List.mem_cons.mp hx with h | h
        · exact Or.inl (by simp [h])
        · rcases ih t2 g x hlen2 hg' h with h2 | h2
          · exact Or.inl (List.mem_cons_of_mem c h2)
          · exact Or.inr h2
      · rw [he] at hx
        rcases List.mem_cons.mp hx with h | h
        · exact Or.inl (by simp [h])
        · rcases List.mem_cons.mp h with h2 | h2
          · exact Or.inr (by simp [h2])
          · rcases ih t2 g x hlen2 hg' h2 with h3 | h3
            · exact Or.inl (List.mem_cons_of_mem c h3)
            · exact Or.inr h3
      · rw [he] at hx
        have hlenr : rest.length ≤ n := le_trans hsuf.length_le hlen2
        rcases List.mem_cons.mp hx with h | h
        · exact Or.inr (by simp [h])
        · rcases List.mem_cons.mp h with h | h
          · exact Or.inr (by simp [h])
          · rcases List.mem_cons.mp h with h | h
            · exact Or.inr (by simp [h])
            · rcases List.mem_cons.mp h with h | h
              · exact Or.inr (by simp [h])
              · rcases List.mem_cons.mp h with h | h
                · exact Or.inr (by simp [h])
                · rcases ih rest g x hlenr hg' h with h2 | h2
                  · exact Or.inl (List.mem_cons_of_mem c (hsuf.subset h2))
                  · exact Or.inr h2

theorem digOk5 : DigOk pat5 := by
  refine ⟨fun X => ?_, fun X => ?_, fun X => ?_, fun X => ?_, fun X => ?_, fun X => ?_,
    fun X => ?_, fun X => ?_, fun X => ?_, fun X => ?_, trivial⟩ <;>
    simp [startsPat, show isE5 '0' = false from by decide,
      show isMm 'g' = false from by decide, show isE5 'g' = false from by decide,
      show ('정' == '1') = false from by decide, show ('g' == '정') = false from by decide,
      show ('g' == '1') = false from by decide, show ('정' == '9') = false from by decide,
      show ('g' == '9') = false from by decide, show isMm '정' = false from by decide,
      show isE5 '정' = false from by decide, bdryB,
      show isWordChar '정' = true from by decide, show isWordChar 'g' = true from by decide]

theorem digOk6 : DigOk pat6 := by
  refine ⟨fun X => ?_, fun X => ?_, fun X => ?_, fun X => ?_, fun X => ?_, fun X => ?_,
    fun X => ?_, fun X => ?_, trivial⟩ <;>
    simp [startsPat, show isI6 '0' = false from by decide,
      show isMm 'g' = false from by decide, show isI6 'g' = false from by decide,
      show ('정' == '1') = false from by decide, show ('g' == '정') = false from by decide,
      show ('g' == '1') = false from by decide, show isMm '정' = false from by decide,
      show isI6 '정' = false from by decide, bdryB,
      show isWordChar '정' = true from by decide, show isWordChar 'g' = true from by decide]

/-- The guard of `sub5` is exactly a `pat5` match at the head. -/
theorem starts5_eq (a b c d e : Char) (rest : List Char) :
    startsPat pat5 (a :: b :: c :: d :: e :: rest) =
      (a == '정' && b == '1' && isE5 c && isMm d && e == '9' && bdryB rest) := by
  simp [startsPat, pat5, Bool.and_assoc]

/-- The guard of `sub6` is exactly a `pat6` match at the head. -/
theorem starts6_eq (a b c d : Char) (rest : List Char) :
    startsPat pat6 (a :: b :: c :: d :: rest) =
      (a == '정' && b == '1' && isI6 c && isMm d && bdryB rest) := by
  simp [startsPat, pat6, Bool.and_assoc]

theorem scanFamP5 : ScanFamP pat5 (fun f => f = sub5) := by
  intro f hf
  subst hf
  refine ⟨rfl, fun c t => ?_⟩
  rcases t with _ | ⟨b, _ | ⟨c2, _ | ⟨d, _ | ⟨e, rest⟩⟩⟩⟩
  · exact Or.inl ⟨by simp [startsPat, pat5], sub5, rfl, rfl⟩
  · exact Or.inl ⟨by simp [startsPat, pat5], sub5, rfl, rfl⟩
  · exact Or.inl ⟨by simp [startsPat, pat5], sub5, rfl, rfl⟩
  · exact Or.inl ⟨by simp [startsPat, pat5], sub5, rfl, rfl⟩
  · by_cases hcond : (c == '정' && b == '1' && isE5 c2 && isMm d && e == '9' && bdryB rest) = true
    · refine Or.inr ⟨sub5, rest, rfl, ⟨[b, c2, d, e], rfl⟩, ?_⟩
      rw [sub5, if_pos hcond]
    · refine Or.inl ⟨?_, sub5, rfl, ?_⟩
      · rw [starts5_eq]; exact Bool.not_eq_true _ ▸ hcond
      · rw [sub5, if_neg hcond]

theorem scanFamP6 : ScanFamP pat6 (fun f => f = sub6) := by
  intro f hf
  subst hf
  refine ⟨rfl, fun c t => ?_⟩
  rcases t with _ | ⟨b, _ | ⟨c2, _ | ⟨d, rest⟩⟩⟩
  · exact Or.inl ⟨by simp [startsPat, pat6], sub6, rfl, rfl⟩
  · exact Or.inl ⟨by simp [startsPat, pat6], sub6, rfl, rfl⟩
  · exact Or.inl ⟨by simp [startsPat, pat6], sub6, rfl, rfl⟩
  · by_cases hcond : (c == '정' && b == '1' && isI6 c2 && isMm d && bdryB rest) = true
    · refine Or.inr ⟨sub6, rest, rfl, ⟨[b, c2, d], rfl⟩, ?_⟩
      rw [sub6, if_pos hcond]
    · refine Or.inl ⟨?_, sub6, rfl, ?_⟩
      · rw [starts6_eq]; exact Bool.not_eq_true _ ▸ hcond
      · rw [sub6, if_neg hcond]

theorem scanFam8 : ScanFam (fun f => ∃ p, f = sub8 p) := by
  rintro f ⟨p, rfl⟩
  refine ⟨rfl, fun c t => ?_⟩
  by_cases hcond : (c == 'm' && prevDigit p && bdryB t) = true
  · exact Or.inr (Or.inl ⟨sub8 (some c), ⟨some c, rfl⟩, by rw [sub8, if_pos hcond]⟩)
  · exact Or.inl ⟨sub8 (some c), ⟨some c, rfl⟩, by rw [sub8, if_neg hcond]⟩

/-- Wrapper: the step-5 scan leaves no `pat5` match. -/
theorem self5 (t : List Char) : hasMatch (startsPat pat5) (sub5 t) = false :=
  selfPat scanFamP5 digOk5 (by decide) (by decide) (by decide) (by decide)
    t.length t sub5 le_rfl rfl

/-- Wrapper: the step-6 scan leaves no `pat6` match. -/
theorem self6 (t : List Char) : hasMatch (startsPat pat6) (sub6 t) = false :=
  selfPat scanFamP6 digOk6 (by decide) (by decide) (by decide) (by decide)
    t.length t sub6 le_rfl rfl

/-- Wrapper: the step-6 scan preserves the absence of `pat5` matches. -/
theorem pres5_sub6 (t : List Char) (h : hasMatch (startsPat pat5) t = false) :
    hasMatch (startsPat pat5) (sub6 t) = false :=
  presPat scanFamP6.toScanFam digOk5 (by decide) (by decide) (by decide) (by decide)
    t.length t sub6 le_rfl rfl h

/-- Wrapper: the step-8 scan preserves the absence of `pat5` matches. -/
theorem pres5_sub8 (p : Option Char) (t : List Char)
    (h : hasMatch (startsPat pat5) t = false) :
    hasMatch (startsPat pat5) (sub8 p t) = false :=
  presPat scanFam8 digOk5 (by decide) (by decide) (by decide) (by decide)
    t.length t (sub8 p) le_rfl ⟨p, rfl⟩ h

/-- Wrapper: the step-8 scan preserves the absence of `pat6` matches. -/
theorem pres6_sub8 (p : Option Char) (t : List Char)
    (h : hasMatch (startsPat pat6) t = false) :
    hasMatch (startsPat pat6) (sub8 p t) = false :=
  presPat scanFam8 digOk6 (by decide) (by decide) (by decide) (by decide)
    t.length t (sub8 p) le_rfl ⟨p, rfl⟩ h

/-- Step 3 only inserts the digit `1`. -/
theorem mem_sub3 (x : Char) (t : List Char) (hx : x ∈ sub3 t) : x ∈ t ∨ x = '1' := by
  induction t using sub3.induct with
  | case1 c1 c2 rest hd ih =>
    rw [sub3, if_pos hd] at hx
    simp only [List.mem_cons] at hx ih ⊢
    tauto
  | case2 c1 c2 rest hd ih =>
    rw [sub3, if_neg hd] at hx
    simp only [List.mem_cons] at hx ih ⊢
    tauto
  | case3 c rest hne ih =>
    rw [sub3] at hx
    case x_1 => exact hne
    simp only [List.mem_cons] at hx ih ⊢
    tauto
  | case4 => simp [sub3] at hx

/-- Step 3 is the identity on inputs without the letter `l`. -/
theorem sub3_noL (t : List Char) (h : ∀ c ∈ t, c ≠ 'l') : sub3 t = t := by
  induction t using sub3.induct with
  | case1 c1 c2 rest hd ih => exact absurd rfl (h 'l' (by simp))
  | case2 c1 c2 rest hd ih => exact absurd rfl (h 'l' (by simp))
  | case3 c rest hne ih =>
    rw [sub3]
    · rw [ih fun x hx => h x (List.mem_cons_of_mem c hx)]
    · exact hne
  | case4 => rfl

/-- Step 7 is the identity on inputs without the letter `l`. -/
theorem sub7_noL (p : Option Char) (t : List Char) (h : ∀ c ∈ t, c ≠ 'l') :
    sub7 p t = t := by
  induction p, t using sub7.induct with
  | case1 prev rest hd ih => exact absurd rfl (h 'l' (by simp))
  | case2 prev rest hd ih => exact absurd rfl (h 'l' (by simp))
  | case3 prev c rest hne ih =>
    rw [sub7]
    · rw [ih fun x hx => h x (List.mem_cons_of_mem c hx)]
    · exact hne
  | case4 => rfl

/-- Step 4 only produces `0` and `1` besides its input characters. -/
theorem mem_sub4 (x : Char) (t : List Char) (hx : x ∈ sub4 t) :
    x ∈ t ∨ x = '0' ∨ x = '1' := by
  simp only [sub4, List.mem_map] at hx
  obtain ⟨c, hc, he⟩ := hx
  by_cases h1 : c = 'O'
  · subst h1; simp at he; tauto
  · by_cases h2 : c = '|'
    · subst h2; simp at he; tauto
    · have hxc : x = c := by rw [← he]; simp [h1, h2]
      subst hxc
      exact Or.inl hc

/-- Step 4 never outputs `O` or `|`. -/
theorem sub4_out (x : Char) (t : List Char) (hx : x ∈ sub4 t) : x ≠ 'O' ∧ x ≠ '|' := by
  simp only [sub4, List.mem_map] at hx
  obtain ⟨c, _, he⟩ := hx
  by_cases h1 : c = 'O'
  · subst h1; rw [← he]; exact ⟨by decide, by decide⟩
  · by_cases h2 : c = '|'
    · subst h2; rw [← he]; exact ⟨by decide, by decide⟩
    · have hxc : x = c := by rw [← he]; simp [h1, h2]
      rw [hxc]
      exact ⟨h1, h2⟩

/-- Step 4 is the identity on inputs without `O` and `|`. -/
theorem sub4_id (t : List Char) (h : ∀ c ∈ t, c ≠ 'O' ∧ c ≠ '|') : sub4 t = t := by
  unfold sub4
  rw [List.map_congr_left fun c (hc : c ∈ t) => ?_, List.map_id]
  simp [show (c == 'O') = false by simp [(h c hc).1],
    show (c == '|') = false by simp [(h c hc).2], id]

/-- Step 5 is the identity when no `pat5` match exists. -/
theorem sub5_id (t : List Char) (h : hasMatch (startsPat pat5) t = false) : sub5 t = t := by
  induction t using sub5.induct with
  | case1 a b c d e rest hd ih =>
    exfalso
    rw [hasMatch_cons] at h
    have := (Bool.or_eq_false_iff.mp h).1
    rw [starts5_eq] at this
    exact absurd hd (by simp [this])
  | case2 a b c d e rest hd ih =>
    rw [hasMatch_cons] at h
    rw [sub5, if_neg hd, ih (Bool.or_eq_false_iff.mp h).2]
  | case3 a rest hne ih =>
    rw [hasMatch_cons] at h
    rw [sub5]
    · rw [ih (Bool.or_eq_false_iff.mp h).2]
    · exact hne
  | case4 => rfl

/-- Step 6 is the identity when no `pat6` match exists. -/
theorem sub6_id (t : List Char) (h : hasMatch (startsPat pat6) t = false) : sub6 t = t := by
  induction t using sub6.induct with
  | case1 a b c d rest hd ih =>
    exfalso
    rw [hasMatch_cons] at h
    have := (Bool.or_eq_false_iff.mp h).1
    rw [starts6_eq] at this
    exact absurd hd (by simp [this])
  | case2 a b c d rest hd ih =>
    rw [hasMatch_cons] at h
    rw [sub6, if_neg hd, ih (Bool.or_eq_false_iff.mp h).2]
  | case3 a rest hne ih =>
    rw [hasMatch_cons] at h
    rw [sub6]
    · rw [ih (Bool.or_eq_false_iff.mp h).2]
    · exact hne
  | case4 => rfl

/-- The lookbehind-tracked match test for step 8. -/
def hasMatch8 (prev : Option Char) : List Char → Bool
  | [] => false
  | c :: rest => (c == 'm' && prevDigit prev && bdryB rest) || hasMatch8 (some c) rest

/-- Step 8 keeps the head character of its input. -/
theorem sub8_cons (p : Option Char) (c : Char) (t : List Char) :
    ∃ X, sub8 p (c :: t) = c :: X := by
  by_cases hcond : (c == 'm' && prevDigit p && bdryB t) = true
  · exact ⟨'g' :: sub8 (some c) t, by rw [sub8, if_pos hcond]⟩
  · exact ⟨sub8 (some c) t, by rw [sub8, if_neg hcond]⟩

/-- Step 8 is the identity when it has no match. -/
theorem sub8_id (t : List Char) : ∀ p, hasMatch8 p t = false → sub8 p t = t := by
  induction t with
  | nil => intro p _; rfl
  | cons c t2 ih =>
    intro p h
    rw [hasMatch8] at h
    obtain ⟨hh, ht⟩ := Bool.or_eq_false_iff.mp h
    rw [sub8, if_neg (by simp [hh]), ih _ ht]

/-- Step 8 leaves no match behind: the inserted `g` destroys the word
boundary, and lookbehind classes are unchanged for equal digit-ness. -/
theorem sub8_self (t : List Char) :
    ∀ p q, prevDigit q = prevDigit p → hasMatch8 q (sub8 p t) = false := by
  induction t with
  | nil => intro p q _; rfl
  | cons c t2 ih =>
    intro p q hpq
    by_cases hcond : (c == 'm' && prevDigit p && bdryB t2) = true
    · rw [sub8, if_pos hcond]
      have hc : c = 'm' := by
        have := hcond
        simp only [Bool.and_eq_true, beq_iff_eq] at this
        exact this.1.1
      subst hc
      rw [hasMatch8, hasMatch8]
      have h1 : bdryB ('g' :: sub8 (some 'm') t2) = false := by
        simp [bdryB, show isWordChar 'g' = true from by decide]
      have h2 : (('g' : Char) == 'm') = false := by decide
      simp only [h1, h2, Bool.and_false, Bool.false_and, Bool.false_or]
      exact ih (some 'm') (some 'g') rfl
    · rw [sub8, if_neg hcond]
      rw [hasMatch8]
      refine Bool.or_eq_false_iff.mpr ⟨?_, ih (some c) (some c) rfl⟩
      by_cases hc : c = 'm'
      · subst hc
        by_cases hp : prevDigit p = true
        · have hnb : ¬ bdryB t2 = true := fun hbt => hcond (by simp [hp, hbt])
          have hb : bdryB t2 = false := Bool.eq_false_iff.mpr hnb
          cases t2 with
          | nil => simp [bdryB] at hb
          | cons w t3 =>
            simp only [bdryB, Bool.not_eq_false] at hb
            obtain ⟨X, hX⟩ := sub8_cons (some 'm') w t3
            rw [hX]
            simp [bdryB, hb]
        · have hq : prevDigit q = false := by
            rw [hpq]; exact Bool.eq_false_iff.mpr hp
          simp [hq]
      · simp [show (c == 'm') = false by simp [hc]]

/-- The characters of the replacement texts are clean for every later step. -/
theorem replP : ∀ x ∈ (['정', '1', '0', 'm', 'g'] : List Char),
    isStripCh x = false ∧ x.isWhitespace = false ∧ x ≠ 'l' := by decide

/-- The characters of the replacement texts are not `O` or `|`. -/
theorem replO : ∀ x ∈ (['정', '1', '0', 'm', 'g'] : List Char),
    x ≠ 'O' ∧ x ≠ '|' := by decide

/-- The normalizer output is a fixed point of the normalizer, for inputs
without the letter `l` (the digit-`l`-digit repair and the `|→1`, `O→0`
substitutions are the only sources of non-idempotence). -/
theorem normList_fix (t : List Char) (hL : ∀ c ∈ t, c ≠ 'l') :
    normList (normList t) = normList t := by
  have hm2 : ∀ x ∈ sub2 (sub1 t),
      isStripCh x = false ∧ x.isWhitespace = false ∧ x ≠ 'l' := by
    intro x hx
    have h2 := List.mem_filter.mp hx
    have h1 := List.mem_filter.mp h2.1
    exact ⟨by simpa using h1.2, by simpa using h2.2, hL x h1.1⟩
  have hm3 : ∀ x ∈ sub3 (sub2 (sub1 t)),
      isStripCh x = false ∧ x.isWhitespace = false ∧ x ≠ 'l' := by
    intro x hx
    rcases mem_sub3 x _ hx with h | h
    · exact hm2 x h
    · subst h; exact ⟨by decide, by decide, by decide⟩
  have hm4 : ∀ x ∈ sub4 (sub3 (sub2 (sub1 t))),
      isStripCh x = false ∧ x.isWhitespace = false ∧ x ≠ 'l' := by
    intro x hx
    rcases mem_sub4 x _ hx with h | h | h
    · exact hm3 x h
    · subst h; exact ⟨by decide, by decide, by decide⟩
    · subst h; exact ⟨by decide, by decide, by decide⟩
  have hm5 : ∀ x ∈ sub5 (sub4 (sub3 (sub2 (sub1 t)))),
      isStripCh x = false ∧ x.isWhitespace = false ∧ x ≠ 'l' := by
    intro x hx
    rcases memScan scanFamP5.toScanFam _ _ _ x le_rfl rfl hx with h | h
    · exact hm4 x h
    · exact replP x h
  have hm6 : ∀ x ∈ sub6 (sub5 (sub4 (sub3 (sub2 (sub1 t))))),
      isStripCh x = false ∧ x.isWhitespace = false ∧ x ≠ 'l' := by
    intro x hx
    rcases memScan scanFamP6.toScanFam _ _ _ x le_rfl rfl hx with h | h
    · exact hm5 x h
    · exact replP x h
  have h7eq : sub7 none (sub6 (sub5 (sub4 (sub3 (sub2 (sub1 t)))))) =
      sub6 (sub5 (sub4 (sub3 (sub2 (sub1 t))))) :=
    sub7_noL _ _ fun c hc => (hm6 c hc).2.2
  have hu : normList t = sub8 none (sub6 (sub5 (sub4 (sub3 (sub2 (sub1 t)))))) := by
    rw [normList, h7eq]
  have huP : ∀ x ∈ normList t,
      isStripCh x = false ∧ x.isWhitespace = false ∧ x ≠ 'l' := by
    rw [hu]
    intro x hx
    rcases memScan scanFam8 _ _ _ x le_rfl ⟨none, rfl⟩ hx with h | h
    · exact hm6 x h
    · exact replP x h
  have huO : ∀ x ∈ normList t, x ≠ 'O' ∧ x ≠ '|' := by
    rw [hu]
    intro x hx
    rcases memScan scanFam8 _ _ _ x le_rfl ⟨none, rfl⟩ hx with h | h
    · rcases memScan scanFamP6.toScanFam _ _ _ x le_rfl rfl h with h2 | h2
      · rcases memScan scanFamP5.toScanFam _ _ _ x le_rfl rfl h2 with h3 | h3
        · exact sub4_out x _ h3
        · exact replO x h3
      · exact replO x h2
    · exact replO x h
  have M5 : hasMatch (startsPat pat5) (normList t) = false := by
    rw [hu]
    exact pres5_sub8 none _ (pres5_sub6 _ (self5 (sub4 (sub3 (sub2 (sub1 t))))))
  have M6 : hasMatch (startsPat pat6) (normList t) = false := by
    rw [hu]
    exact pres6_sub8 none _ (self6 (sub5 (sub4 (sub3 (sub2 (sub1 t))))))
  have M8 : hasMatch8 none (normList t) = false := by
    rw [hu]
    exact sub8_self _ none none rfl
  have s1 : sub1 (normList t) = normList t :=
    List.filter_eq_self.mpr fun a ha => by simp [(huP a ha).1]
  have s2 : sub2 (normList t) = normList t :=
    List.filter_eq_self.mpr fun a ha => by simp [(huP a ha).2.1]
  have s3 : sub3 (normList t) = normList t := sub3_noL _ fun c hc => (huP c hc).2.2
  have s4 : sub4 (normList t) = normList t := sub4_id _ fun c hc => huO c hc
  have s5 : sub5 (normList t) = normList t := sub5_id _ M5
  have s6 : sub6 (normList t) = normList t := sub6_id _ M6
  have s7 : sub7 none (normList t) = normList t := sub7_noL _ _ fun c hc => (huP c hc).2.2
  have s8 : sub8 none (normList t) = normList t := sub8_id _ none M8
  conv_lhs => rw [normList]
  rw [s1, s2, s3, s4, s5, s6, s7, s8]

/-- **C2 counterexample.** Normalization is not idempotent: on `"1l|"` the
digit-`l`-digit repair runs before `|` is turned into `1`, so the first
pass yields `"1l1"` and a second pass rewrites it to `"111"`. -/
theorem c2_idempotence_counterexample :
    ¬ _normalize_ocr (_normalize_ocr "1l|") = _normalize_ocr "1l|" := by decide

/-- **C2 (amended).** The OCR normalizer is idempotent on every string that
does not contain the letter `l`: `normalize(normalize(s)) = normalize(s)`. -/
theorem c2_normalize_idempotent (s : String) (h : ∀ c ∈ s.data, c ≠ 'l') :
    _normalize_ocr (_normalize_ocr s) = _normalize_ocr s := by
  show String.mk (normList (String.mk (normList s.data)).data) = String.mk (normList s.data)
  rw [show (String.mk (normList s.data)).data = normList s.data from rfl,
    normList_fix s.data h]

/-- Witness for C2 at a concrete `l`-free OCR string. -/
theorem c2_normalize_idempotent_witness :
    (∀ c ∈ ("타이레놀정500mg" : String).data, c ≠ 'l') ∧
      _normalize_ocr (_normalize_ocr "타이레놀정500mg") = _normalize_ocr "타이레놀정500mg" :=
  ⟨by decide, c2_normalize_idempotent _ (by decide)⟩

/-- Witness for C9: with no lexicon, no OCR lines and a lookup that always
fails, the candidate list is empty and the sentinel row is returned. -/
theorem c9_sentinel_record_witness :
    (parse_prescription none (fun _ => none) [] []).candidates = [] ∧
      ((parse_prescription none (fun _ => none) [] []).medicines = [sentinelRecord] ∧
        sentinelRecord.name = "약 정보 없음 (Lexicon 확인 필요)" ∧
        sentinelRecord.per_dose = 0 ∧ sentinelRecord.frequency = 0 ∧
        sentinelRecord.timing = "정보없음") :=
  ⟨rfl, c9_sentinel_record none (fun _ => none) [] [] rfl⟩

/-- Elements of a `by_canon` update: an old element or the new candidate. -/
theorem upsert_mem (acc : List MatchCandidate) (r x : MatchCandidate)
    (hx : x ∈ upsertCand acc r) : x ∈ acc ∨ x = r := by
  induction acc with
  | nil => simp [upsertCand] at hx; simp [hx]
  | cons c rest ih =>
    rw [upsertCand] at hx
    by_cases hc : (c.canonical == r.canonical) = true
    · rw [if_pos hc] at hx
      rcases List.mem_cons.mp hx with h | h
      · by_cases hs : c.score < r.score
        · rw [if_pos hs] at h; exact Or.inr h
        · rw [if_neg hs] at h; exact Or.inl (by simp [h])
      · exact Or.inl (List.mem_cons_of_mem c h)
    · rw [if_neg hc] at hx
      rcases List.mem_cons.mp hx with h | h
      · exact Or.inl (by simp [h])
      · rcases ih h with h2 | h2
        · exact Or.inl (List.mem_cons_of_mem c h2)
        · exact Or.inr h2

/-- A `by_canon` update keeps an entry at least as high as the new
candidate, under the candidate's canonical. -/
theorem upsert_exists (acc : List MatchCandidate) (r : MatchCandidate) :
    ∃ c ∈ upsertCand acc r, c.canonical = r.canonical ∧ r.score ≤ c.score := by
  induction acc with
  | nil => exact ⟨r, by simp [upsertCand], rfl, le_refl _⟩
  | cons c rest ih =>
    rw [upsertCand]
    by_cases hc : (c.canonical == r.canonical) = true
    · rw [if_pos hc]
      by_cases hs : c.score < r.score
      · exact ⟨r, by simp [hs], rfl, le_refl _⟩
      · exact ⟨c, by simp [hs], by simpa using hc, le_of_not_lt hs⟩
    · rw [if_neg hc]
      obtain ⟨c2, hmem, hcan, hle⟩ := ih
      exact ⟨c2, List.mem_cons_of_mem c hmem, hcan, hle⟩

/-- A `by_canon` update never lowers the entry held for any canonical. -/
theorem upsert_mono (acc : List MatchCandidate) (r : MatchCandidate) :
    ∀ c ∈ acc, ∃ c2 ∈ upsertCand acc r, c2.canonical = c.canonical ∧ c.score ≤ c2.score := by
  induction acc with
  | nil => simp
  | cons c0 rest ih =>
    intro c hc
    rw [upsertCand]
    by_cases hc0 : (c0.canonical == r.canonical) = true
    · rw [if_pos hc0]
      rcases List.mem_cons.mp hc with h | h
      · subst h
        by_cases hs : c.score < r.score
        · exact ⟨r, by simp [hs], (show c.canonical = r.canonical by simpa using hc0).symm,
            le_of_lt hs⟩
        · exact ⟨c, by simp [hs], rfl, le_refl _⟩
      · exact ⟨c, List.mem_cons_of_mem _ h, rfl, le_refl _⟩
    · rw [if_neg hc0]
      rcases List.mem_cons.mp hc with h | h
      · subst h
        exact ⟨c, by simp, rfl, le_refl _⟩
      · obtain ⟨c2, hmem, hcan, hle⟩ := ih c h
        exact ⟨c2, List.mem_cons_of_mem _ hmem, hcan, hle⟩

/-- A `by_canon` update keeps canonicals pairwise distinct. -/
theorem upsert_pairwise (acc : List MatchCandidate) (r : MatchCandidate)
    (h : List.Pairwise (fun a b => a.canonical ≠ b.canonical) acc) :
    List.Pairwise (fun a b => a.canonical ≠ b.canonical) (upsertCand acc r) := by
  induction acc with
  | nil => simp [upsertCand]
  | cons c rest ih =>
    rw [List.pairwise_cons] at h
    rw [upsertCand]
    by_cases hc : (c.canonical == r.canonical) = true
    · rw [if_pos hc]
      rw [List.pairwise_cons]
      refine ⟨fun b hb => ?_, h.2⟩
      have hcan : (if c.score < r.score then r else c).canonical = c.canonical := by
        by_cases hs : c.score < r.score
        · simp [hs, (show c.canonical = r.canonical by simpa using hc).symm]
        · simp [hs]
      rw [hcan]
      exact h.1 b hb
    · rw [if_neg hc]
      rw [List.pairwise_cons]
      refine ⟨fun b hb => ?_, ih h.2⟩
      rcases upsert_mem rest r b hb with h2 | h2
      · exact h.1 b h2
      · subst h2; simpa using hc

/-- Batch dedup produces pairwise-distinct canonicals. -/
theorem dedupe_pairwise (rs : List MatchCandidate) :
    List.Pairwise (fun a b => a.canonical ≠ b.canonical) (dedupeByCanon rs) := by
  have : ∀ acc, List.Pairwise (fun a b : MatchCandidate => a.canonical ≠ b.canonical) acc →
      List.Pairwise (fun a b => a.canonical ≠ b.canonical) (rs.foldl upsertCand acc) := by
    induction rs with
    | nil => intro acc h; exact h
    | cons r rs ih => intro acc h; exact ih _ (upsert_pairwise acc r h)
  exact this [] (by simp)

/-- Batch dedup only emits candidates that were in its input. -/
theorem dedupe_mem (rs : List MatchCandidate) (x : MatchCandidate)
    (hx : x ∈ dedupeByCanon rs) : x ∈ rs := by
  have : ∀ (rs2 : List MatchCandidate) (acc : List MatchCandidate),
      x ∈ rs2.foldl upsertCand acc → x ∈ acc ∨ x ∈ rs2 := by
    intro rs2
    induction rs2 with
    | nil => intro acc h; exact Or.inl h
    | cons r rs ih =>
      intro acc h
      rcases ih _ h with h2 | h2
      · rcases upsert_mem acc r x h2 with h3 | h3
        · exact Or.inl h3
        · exact Or.inr (by simp [h3])
      · exact Or.inr (List.mem_cons_of_mem r h2)
  rcases this rs [] hx with h | h
  · simp at h
  · exact h

/-- The whole fold never lowers the entry held for any canonical. -/
theorem fold_mono (rs : List MatchCandidate) :
    ∀ acc, ∀ c ∈ acc, ∃ c2 ∈ rs.foldl upsertCand acc,
      c2.canonical = c.canonical ∧ c.score ≤ c2.score := by
  induction rs with
  | nil => intro acc c hc; exact ⟨c, hc, rfl, le_refl _⟩
  | cons r rs ih =>
    intro acc c hc
    obtain ⟨c1, hc1, hcan1, hle1⟩ := upsert_mono acc r c hc
    obtain ⟨c2, hc2, hcan2, hle2⟩ := ih _ c1 hc1
    exact ⟨c2, hc2, hcan2.trans hcan1, le_trans hle1 hle2⟩

/-- Every raw result is dominated by the deduped entry of its canonical. -/
theorem dedupe_dominates (rs : List MatchCandidate) (r : MatchCandidate) (hr : r ∈ rs) :
    ∃ c ∈ dedupeByCanon rs, c.canonical = r.canonical ∧ r.score ≤ c.score := by
  have main : ∀ (rs2 : List MatchCandidate) (acc : List MatchCandidate), r ∈ rs2 →
      ∃ c ∈ rs2.foldl upsertCand acc, c.canonical = r.canonical ∧ r.score ≤ c.score := by
    intro rs2
    induction rs2 with
    | nil => intro acc h; simp at h
    | cons r0 rs ih =>
      intro acc h
      rcases List.mem_cons.mp h with h2 | h2
      · subst h2
        obtain ⟨c1, hc1, hcan1, hle1⟩ := upsert_exists acc r
        obtain ⟨c2, hc2, hcan2, hle2⟩ := fold_mono rs _ c1 hc1
        exact ⟨c2, hc2, hcan2.trans hcan1, le_trans hle1 hle2⟩
      · exact ih _ h2
  exact main rs [] hr

theorem insertDesc_perm (c : MatchCandidate) (l : List MatchCandidate) :
    List.Perm (insertDesc c l) (c :: l) := by
  induction l with
  | nil => rfl
  | cons d rest ih =>
    rw [insertDesc]
    by_cases hs : d.score < c.score
    · rw [if_pos hs]
    · rw [if_neg hs]
      exact (ih.cons d).trans (List.Perm.swap c d rest)

theorem sortDesc_perm (l : List MatchCandidate) : List.Perm (sortDesc l) l := by
  induction l with
  | nil => rfl
  | cons c rest ih => exact (insertDesc_perm c (sortDesc rest)).trans (ih.cons c)

theorem insertDesc_sorted (c : MatchCandidate) (l : List MatchCandidate)
    (h : List.Sorted (fun a b => b.score ≤ a.score) l) :
    List.Sorted (fun a b => b.score ≤ a.score) (insertDesc c l) := by
  induction l with
  | nil => simp [insertDesc]
  | cons d rest ih =>
    rw [List.sorted_cons] at h
    rw [insertDesc]
    by_cases hs : d.score < c.score
    · rw [if_pos hs]
      rw [List.sorted_cons]
      refine ⟨fun b hb => ?_, List.sorted_cons.mpr h⟩
      rcases List.mem_cons.mp hb with h2 | h2
      · subst h2; exact le_of_lt hs
      · exact le_trans (h.1 b h2) (le_of_lt hs)
    · rw [if_neg hs]
      rw [List.sorted_cons]
      refine ⟨fun b hb => ?_, ih h.2⟩
      rcases List.mem_cons.mp ((insertDesc_perm c rest).mem_iff.mp hb) with h2 | h2
      · subst h2; exact le_of_not_lt hs
      · exact h.1 b h2

theorem sortDesc_sorted (l : List MatchCandidate) :
    List.Sorted (fun a b => b.score ≤ a.score) (sortDesc l) := by
  induction l with
  | nil => simp [sortDesc]
  | cons c rest ih => exact insertDesc_sorted c (sortDesc rest) ih

/-- **C1.** Batch dedup invariant: the candidate list returned by
`match_from_ocr_lines` has no two entries with an equal canonical, it is
sorted by descending score, and every pre-dedup result is dominated by the
returned entry of its canonical (at most one candidate per canonical is
kept — the highest-scoring one). -/
theorem c1_dedup_invariant (lex : DrugLexicon) (ocr_lines : List String) :
    List.Pairwise (fun a b => a.canonical ≠ b.canonical)
        (match_from_ocr_lines lex ocr_lines) ∧
      List.Sorted (fun a b => b.score ≤ a.score) (match_from_ocr_lines lex ocr_lines) ∧
      List.Forall
        (fun r =>
          List.Forall (fun c => r.canonical ≠ c.canonical ∨ r.score ≤ c.score)
            (match_from_ocr_lines lex ocr_lines))
        (matchResults lex ocr_lines) := by
  have hperm : List.Perm (match_from_ocr_lines lex ocr_lines)
      (dedupeByCanon (matchResults lex ocr_lines)) :=
    sortDesc_perm _
  have hsymm : Symmetric (fun a b : MatchCandidate => a.canonical ≠ b.canonical) :=
    fun a b h => Ne.symm h
  have hpair : List.Pairwise (fun a b => a.canonical ≠ b.canonical)
      (dedupeByCanon (matchResults lex ocr_lines)) := dedupe_pairwise _
  refine ⟨(List.Perm.pairwise_iff (fun {_ _} h => Ne.symm h) hperm).mpr hpair,
    sortDesc_sorted _, ?_⟩
  rw [List.forall_iff_forall_mem]
  intro r hr
  rw [List.forall_iff_forall_mem]
  intro c hc
  by_cases hcan : r.canonical = c.canonical
  · right
    obtain ⟨c2, hc2mem, hc2can, hc2le⟩ := dedupe_dominates _ r hr
    have hc' : c ∈ dedupeByCanon (matchResults lex ocr_lines) := hperm.subset hc
    by_cases heq : c2 = c
    · subst heq; exact hc2le
    · exact absurd (hc2can.trans hcan) (List.Pairwise.forall hsymm hpair hc2mem hc' heq)
  · exact Or.inl hcan

theorem foldl_ge_init {α β : Type} [Preorder β] (l : List α) (step : β → α → β)
    (h : ∀ q a, q ≤ step q a) : ∀ q, q ≤ l.foldl step q := by
  induction l with
  | nil => intro q; exact le_refl q
  | cons a l ih => intro q; exact le_trans (h q a) (ih (step q a))

theorem foldl_le_bound {α β : Type} [Preorder β] (l : List α) (step : β → α → β) (B : β)
    (h : ∀ q a, q ≤ B → step q a ≤ B) : ∀ q, q ≤ B → l.foldl step q ≤ B := by
  induction l with
  | nil => intro q hq; exact hq
  | cons a l ih => intro q hq; exact ih (step q a) (h q a hq)

theorem jamo_sim_nonneg (a b : List Char) : 0 ≤ _jamo_sim a b := by
  simp only [_jamo_sim]
  split
  · exact le_refl 0
  · split
    · exact le_refl 0
    · next h => exact le_of_not_le h

theorem jamo_sim_le_one (a b : List Char) : _jamo_sim a b ≤ 1 := by
  simp only [_jamo_sim]
  split
  · exact zero_le_one
  · split
    · exact zero_le_one
    · have hd : (0 : ℚ) ≤ (_levenshtein (_to_jamo a) (_to_jamo b) : ℚ) := by positivity
      have hm : (0 : ℚ) ≤ ((max 2 (max (_to_jamo a).length (_to_jamo b).length) : ℕ) : ℚ) := by
        positivity
      have := div_nonneg hd hm
      linarith

theorem maxJamoSim_nonneg (as ts : List (List Char)) (nl : List Char) :
    0 ≤ maxJamoSim as ts nl := by
  unfold maxJamoSim
  refine foldl_ge_init _ _ (fun q a => ?_) 0
  exact le_trans (le_max_left q (_jamo_sim a nl))
    (foldl_ge_init _ _ (fun q2 tok => le_max_left q2 (_jamo_sim a tok)) _)

theorem maxJamoSim_le_one (as ts : List (List Char)) (nl : List Char) :
    maxJamoSim as ts nl ≤ 1 := by
  unfold maxJamoSim
  refine foldl_le_bound _ _ 1 (fun q a hq => ?_) 0 zero_le_one
  refine foldl_le_bound _ _ 1 (fun q2 tok hq2 => max_le hq2 (jamo_sim_le_one a tok)) _
    (max_le hq (jamo_sim_le_one a nl))

theorem idfBoost_nonneg (lex : DrugLexicon) (mt : List (List Char)) :
    0 ≤ idfBoost lex mt := by
  unfold idfBoost
  exact foldl_ge_init _ _ (fun q t => le_max_left _ _) 0

theorem idfBoost_le (lex : DrugLexicon) (mt : List (List Char)) :
    idfBoost lex mt ≤ 0.6 := by
  unfold idfBoost
  refine foldl_le_bound _ _ (0.6 : ℝ) (fun q t hq => max_le hq ?_) 0 (by norm_num)
  exact min_le_left _ _

theorem affixHitTok_bounds (al : List Char) :
    ∀ ts q extra, affixHitTok al ts = some (q, extra) → 0 ≤ q ∧ q ≤ 95 / 100 := by
  intro ts
  induction ts with
  | nil => intro q extra h; simp [affixHitTok] at h
  | cons tok rest ih =>
    intro q extra h
    rw [affixHitTok] at h
    split at h
    · injection h with h2
      injection h2 with h3 h4
      subst h3
      constructor <;> norm_num
    · split at h
      · injection h with h2
        injection h2 with h3 h4
        subst h3
        constructor <;> norm_num
      · exact ih q extra h

theorem affixHit_bounds :
    ∀ als ts q extra, affixHit als ts = some (q, extra) → 0 ≤ q ∧ q ≤ 95 / 100 := by
  intro als
  induction als with
  | nil => intro ts q extra h; simp [affixHit] at h
  | cons al rest ih =>
    intro ts q extra h
    rw [affixHit] at h
    split at h
    · next heq =>
      rename_i val
      rcases val with ⟨q2, extra2⟩
      injection h with h2
      injection h2 with h3 h4
      subst h3
      exact affixHitTok_bounds al ts q2 extra2 heq
    · exact ih ts q extra h

theorem hardParts_bounds (d : Drug) (ld : LineData) :
    0 ≤ (hardParts d ld).1 ∧ (hardParts d ld).1 ≤ 95 / 100 := by
  rw [hardParts]
  split
  · constructor <;> norm_num
  · split
    · next q extra heq =>
      exact affixHit_bounds _ _ q extra heq
    · constructor <;> norm_num

theorem rawScore_nonneg (lex : DrugLexicon) (d : Drug) (ld : LineData) :
    0 ≤ rawScore lex d ld := by
  have hA : (0 : ℝ) ≤ ((hardParts d ld).1 : ℝ) := by
    have := (hardParts_bounds d ld).1
    exact_mod_cast this
  unfold rawScore
  dsimp only
  split
  · refine le_trans ?_ (le_max_left _ _)
    split
    · exact hA
    · exact le_trans hA (le_max_left _ _)
  · split
    · refine le_trans ?_ (le_max_left _ _)
      split
      · exact hA
      · exact le_trans hA (le_max_left _ _)
    · split
      · exact hA
      · exact le_trans hA (le_max_left _ _)

theorem roundHE_bounds (x : ℝ) (h0 : 0 ≤ x) (h1 : x ≤ 100) :
    0 ≤ roundHalfEven x ∧ roundHalfEven x ≤ 100 := by
  have hn0 : 0 ≤ ⌊x⌋ := Int.le_floor.mpr (by exact_mod_cast h0)
  have hn1 : ⌊x⌋ ≤ 100 := by
    have := Int.floor_le_floor h1
    simpa using this
  have hfl : (⌊x⌋ : ℝ) ≤ x := Int.floor_le x
  unfold roundHalfEven
  dsimp only
  split
  · exact ⟨hn0, hn1⟩
  · next hf1 =>
    have hge : (1 : ℝ) / 2 ≤ x - (⌊x⌋ : ℝ) := le_of_not_lt hf1
    have hlt : ⌊x⌋ < 100 := by
      have : (⌊x⌋ : ℝ) < 100 := by linarith
      exact_mod_cast this
    split
    · exact ⟨by omega, by omega⟩
    · split
      · exact ⟨hn0, hn1⟩
      · exact ⟨by omega, by omega⟩

theorem round2_bounds (x : ℝ) (h0 : 0 ≤ x) (h1 : x ≤ 1) :
    0 ≤ round2 x ∧ round2 x ≤ 1 := by
  have hy0 : (0 : ℝ) ≤ x * 100 := by linarith
  have hy1 : x * 100 ≤ 100 := by linarith
  obtain ⟨hb0, hb1⟩ := roundHE_bounds (x * 100) hy0 hy1
  unfold round2
  constructor
  · have : (0 : ℝ) ≤ (roundHalfEven (x * 100) : ℝ) := by exact_mod_cast hb0
    linarith
  · have : (roundHalfEven (x * 100) : ℝ) ≤ 100 := by exact_mod_cast hb1
    linarith

theorem mkCand_bounds (lex : DrugLexicon) (d : Drug) (ld : LineData) (idx : Nat)
    (line : String) :
    0 ≤ (mkCand lex d ld idx line).score ∧ (mkCand lex d ld idx line).score ≤ 1 := by
  unfold mkCand
  simp only
  exact round2_bounds _ (le_min (rawScore_nonneg lex d ld) zero_le_one) (min_le_right _ _)

theorem lineResults_bounds (lex : DrugLexicon) (idx : Nat) (line : String) :
    ∀ c ∈ lineResults lex idx line, 0 ≤ c.score ∧ c.score ≤ 1 := by
  unfold lineResults
  dsimp only
  split
  · simp
  · have main : ∀ (ds : List Drug) (st : List String × List MatchCandidate),
        (∀ c ∈ st.2, 0 ≤ c.score ∧ c.score ≤ 1) →
        ∀ c ∈ (ds.foldl
            (fun st d =>
              if thresholdOf lex d (mkLineData line) ≤ rawScore lex d (mkLineData line) then
                if st.1.contains d.canonical then st
                else (d.canonical :: st.1, st.2 ++ [mkCand lex d (mkLineData line) idx line])
              else st)
            st).2,
          0 ≤ c.score ∧ c.score ≤ 1 := by
      intro ds
      induction ds with
      | nil => intro st h; exact h
      | cons d ds ih =>
        intro st h
        refine ih _ ?_
        intro c hc
        dsimp only at hc
        split at hc
        · split at hc
          · exact h c hc
          · simp only at hc
            rcases List.mem_append.mp hc with h2 | h2
            · exact h c h2
            · rw [List.mem_singleton.mp h2]
              exact mkCand_bounds lex d (mkLineData line) idx line
        · exact h c hc
    exact main lex.drugs ([], []) (by simp)

theorem matchResults_bounds (lex : DrugLexicon) (ocr_lines : List String) :
    ∀ c ∈ matchResults lex ocr_lines, 0 ≤ c.score ∧ c.score ≤ 1 := by
  intro c hc
  unfold matchResults at hc
  rw [List.mem_flatten] at hc
  obtain ⟨l, hl, hcl⟩ := hc
  rw [List.mem_map] at hl
  obtain ⟨p, _, hpe⟩ := hl
  exact lineResults_bounds lex p.1 p.2 c (hpe ▸ hcl)

/-- **C3.** Score bounds: the clamped per-pair score of every (line, entry)
pair lies in `[0, 1]`, and so does the score of every emitted candidate,
both before and after the batch-level dedup — the per-pair score is a
maximum of sub-scores clamped to 1. -/
theorem c3_score_bounds (lex : DrugLexicon) (ocr_lines : List String) :
    (∀ (d : Drug) (ld : LineData) (idx : Nat) (line : String),
        0 ≤ (mkCand lex d ld idx line).score ∧ (mkCand lex d ld idx line).score ≤ 1) ∧
      List.Forall (fun c => 0 ≤ c.score ∧ c.score ≤ 1) (matchResults lex ocr_lines) ∧
      List.Forall (fun c => 0 ≤ c.score ∧ c.score ≤ 1)
        (match_from_ocr_lines lex ocr_lines) := by
  refine ⟨fun d ld idx line => mkCand_bounds lex d ld idx line, ?_, ?_⟩
  · rw [List.forall_iff_forall_mem]
    exact matchResults_bounds lex ocr_lines
  · rw [List.forall_iff_forall_mem]
    intro c hc
    have hc2 : c ∈ dedupeByCanon (matchResults lex ocr_lines) :=
      (sortDesc_perm _).subset hc
    exact matchResults_bounds lex ocr_lines c (dedupe_mem _ c hc2)

/-- The acceptance threshold never exceeds one half. -/
theorem thresholdOf_le_half (lex : DrugLexicon) (d : Drug) (ld : LineData) :
    thresholdOf lex d ld ≤ 1 / 2 := by
  unfold thresholdOf
  dsimp only
  split
  · refine le_trans (min_le_right _ _) (by norm_num)
  · split
    · norm_num
    · norm_num

/-- The final raw score dominates the hard-containment score. -/
theorem rawScore_ge_hard (lex : DrugLexicon) (d : Drug) (ld : LineData) :
    ((hardParts d ld).1 : ℝ) ≤ rawScore lex d ld := by
  unfold rawScore
  dsimp only
  split
  · refine le_trans ?_ (le_max_left _ _)
    split
    · exact le_refl _
    · exact le_max_left _ _
  · split
    · refine le_trans ?_ (le_max_left _ _)
      split
      · exact le_refl _
      · exact le_max_left _ _
    · split
      · exact le_refl _
      · exact le_max_left _ _

/-- Rounding half to even never goes below the floor. -/
theorem floor_le_roundHE (x : ℝ) : ⌊x⌋ ≤ roundHalfEven x := by
  unfold roundHalfEven
  dsimp only
  split
  · exact le_refl _
  · split
    · omega
    · split
      · exact le_refl _
      · omega

/-- Rounding to two decimals keeps a value of at least 0.95. -/
theorem round2_ge_95 (x : ℝ) (h : (95 : ℝ) / 100 ≤ x) : (95 : ℝ) / 100 ≤ round2 x := by
  have hfl : (95 : ℤ) ≤ ⌊x * 100⌋ := Int.le_floor.mpr (by push_cast; linarith)
  have hr : (95 : ℤ) ≤ roundHalfEven (x * 100) := le_trans hfl (floor_le_roundHE _)
  unfold round2
  have : (95 : ℝ) ≤ (roundHalfEven (x * 100) : ℝ) := by exact_mod_cast hr
  linarith

/-- The lexicon entry built from the catalog line `"타이레놀 | 타이레놀정"`. -/
def scenarioDrug : Drug :=
  { canonical := "타이레놀",
    aliases := ["타이레놀", "타이레놀정"],
    tokens := ["타이레놀정".data, "타이".data, "타이레".data],
    token_roots := [_to_jamo "타이레놀".data, _to_jamo "타이".data, _to_jamo "타이레".data],
    normalized_aliases := ["타이레놀".data, "타이레놀정".data] }

example : (mkLexicon ["타이레놀 | 타이레놀정"]).drugs = [scenarioDrug] := by decide

example :
    hardContain scenarioDrug.normalized_aliases (mkLineData "타이레놀정500mg").normLine =
      true := by decide

example : (mkLineData "타이레놀정500mg").line_tokens_raw.isEmpty = false := by decide

/-- **C8.** Scenario A: with a lexicon built from the single entry
`"타이레놀 | 타이레놀정"`, matching the line `"타이레놀정500mg"` produces one
candidate, with canonical `"타이레놀"` and score ≥ 0.95, via the hard
containment rule (the alias `타이레놀` is a substring of the line). -/
theorem c8_scenario_a :
    ∃ c, match_from_ocr_lines (mkLexicon ["타이레놀 | 타이레놀정"]) ["타이레놀정500mg"] = [c] ∧
      c.canonical = "타이레놀" ∧ (95 : ℝ) / 100 ≤ c.score := by
  have hds : (mkLexicon ["타이레놀 | 타이레놀정"]).drugs = [scenarioDrug] := by decide
  have hh : hardParts scenarioDrug (mkLineData "타이레놀정500mg") =
      (95 / 100, matchedTokens0 (mkLineData "타이레놀정500mg") scenarioDrug, true) := by
    rw [hardParts, if_pos (by decide)]
  have hraw : (95 : ℝ) / 100 ≤
      rawScore (mkLexicon ["타이레놀 | 타이레놀정"]) scenarioDrug (mkLineData "타이레놀정500mg") := by
    have h2 := rawScore_ge_hard (mkLexicon ["타이레놀 | 타이레놀정"]) scenarioDrug
      (mkLineData "타이레놀정500mg")
    rw [hh] at h2
    refine le_trans ?_ h2
    push_cast
    norm_num
  have hthr : thresholdOf (mkLexicon ["타이레놀 | 타이레놀정"]) scenarioDrug
      (mkLineData "타이레놀정500mg") ≤
      rawScore (mkLexicon ["타이레놀 | 타이레놀정"]) scenarioDrug (mkLineData "타이레놀정500mg") :=
    le_trans (thresholdOf_le_half _ _ _) (le_trans (by norm_num) hraw)
  have hlr : lineResults (mkLexicon ["타이레놀 | 타이레놀정"]) 0 "타이레놀정500mg" =
      [mkCand (mkLexicon ["타이레놀 | 타이레놀정"]) scenarioDrug (mkLineData "타이레놀정500mg")
        0 "타이레놀정500mg"] := by
    unfold lineResults
    dsimp only
    rw [if_neg (by decide : ¬(mkLineData "타이레놀정500mg").line_tokens_raw.isEmpty = true)]
    rw [hds]
    simp only [List.foldl_cons, List.foldl_nil]
    rw [if_pos hthr]
    simp
  have hmr : matchResults (mkLexicon ["타이레놀 | 타이레놀정"]) ["타이레놀정500mg"] =
      [mkCand (mkLexicon ["타이레놀 | 타이레놀정"]) scenarioDrug (mkLineData "타이레놀정500mg")
        0 "타이레놀정500mg"] := by
    unfold matchResults
    rw [show List.enum ["타이레놀정500mg"] = [(0, "타이레놀정500mg")] from rfl]
    simp [hlr]
  refine ⟨mkCand (mkLexicon ["타이레놀 | 타이레놀정"]) scenarioDrug (mkLineData "타이레놀정500mg")
    0 "타이레놀정500mg", ?_, rfl, ?_⟩
  · unfold match_from_ocr_lines
    rw [hmr]
    rw [show dedupeByCanon
        [mkCand (mkLexicon ["타이레놀 | 타이레놀정"]) scenarioDrug (mkLineData "타이레놀정500mg")
          0 "타이레놀정500mg"] =
        [mkCand (mkLexicon ["타이레놀 | 타이레놀정"]) scenarioDrug (mkLineData "타이레놀정500mg")
          0 "타이레놀정500mg"] from by simp [dedupeByCanon, upsertCand]]
    simp [sortDesc, insertDesc]
  · show (95 : ℝ) / 100 ≤ round2 (min (rawScore (mkLexicon ["타이레놀 | 타이레놀정"]) scenarioDrug
      (mkLineData "타이레놀정500mg")) 1)
    exact round2_ge_95 _ (le_min hraw (by norm_num))

end MedicineApi
